import Mathlib

/-!
Verification of the text-to-Markdown reconstruction pipeline of a PDF-to-Markdown
converter (source: `src/app.js`).  Strings are modelled as `List Char`;
JavaScript string operations (`trim`, `split('\n\n')`, the two `gm`-flagged
regex replaces, `replace(/\n{3,}/g, ...)`) are embedded faithfully, including
the multiline behaviour of `\s+` in the replace patterns (which can consume
line terminators).  Numbers (fragment `y` coordinates) are modelled as `ℚ`.
-/

abbrev Chars := List Char

/-- JavaScript `\s` / `trim` whitespace set (WhiteSpace ∪ LineTerminator). -/
def jsSpace (c : Char) : Bool :=
  c = ' ' || c = '\t' || c = '\n' || c = '\x0b' || c = '\x0c' || c = '\r' ||
  c = '\u00A0' || c = '\u1680' ||
  c = '\u2000' || c = '\u2001' || c = '\u2002' || c = '\u2003' || c = '\u2004' ||
  c = '\u2005' || c = '\u2006' || c = '\u2007' || c = '\u2008' || c = '\u2009' ||
  c = '\u200A' ||
  c = '\u2028' || c = '\u2029' || c = '\u202F' || c = '\u205F' || c = '\u3000' ||
  c = '\uFEFF'

/-- JavaScript line terminators (what `.` does not match; where `^`/`$` anchor with `m`). -/
def isLineTerm (c : Char) : Bool :=
  c = '\n' || c = '\r' || c = '\u2028' || c = '\u2029'

/-- JavaScript `String.prototype.trim`. -/
def jsTrim (cs : Chars) : Chars :=
  ((cs.dropWhile jsSpace).reverse.dropWhile jsSpace).reverse

/-- `text.split('\n\n')`: split on the double-newline marker, leftmost-first. -/
def splitNN : Chars → List Chars
  | '\n' :: '\n' :: rest => [] :: splitNN rest
  | c :: rest => (splitNN rest).modifyHead (fun l => c :: l)
  | [] => [[]]

/-- Test of `/^\d+\./` against the start of a string. -/
def startsNumDot (t : Chars) : Bool :=
  match t.drop (t.takeWhile Char.isDigit).length with
  | '.' :: _ => !(t.takeWhile Char.isDigit).isEmpty
  | _ => false

/-- Test of `/^[•·▪▸■\-\*]/`: the heading-exclusion glyph set of the source. -/
def startsBulletStar (t : Chars) : Bool :=
  match t with
  | c :: _ => c = '•' || c = '·' || c = '▪' || c = '▸' || c = '■' || c = '-' || c = '*'
  | [] => false

/-- The bullet glyph class `[•·▪▸■]` of the replace regex at `app.js:431`. -/
def glyphB (c : Char) : Bool :=
  c = '•' || c = '·' || c = '▪' || c = '▸' || c = '■'

/-- The per-paragraph classification of `formatAsMarkdown` (`app.js:411-426`):
`arr` is the filtered paragraph array, `idx` the index, `para` the paragraph. -/
def classifyPara (arr : List Chars) (idx : Nat) (para : Chars) : Chars :=
  if 5 < (jsTrim para).length ∧ (jsTrim para).length < 60 ∧
      startsNumDot (jsTrim para) = false ∧ startsBulletStar (jsTrim para) = false ∧
      idx < arr.length - 1 ∧ (jsTrim para).length < (arr.getD (idx + 1) []).length then
    '#' :: '#' :: ' ' :: jsTrim para
  else jsTrim para

/-!
The two `gm` regex replaces.  Both have the shape `^marker\s+(.+)$`; the shared
tail `\s+(.+)$` is embedded by `tryTail`.  `\s+` is greedy and may consume line
terminators; `(.+)` matches one-or-more non-line-terminator characters; with
backtracking, the capture is the maximal non-terminator run after the maximal
whitespace run, except when the whole rest of the input is whitespace, in which
case `\s+` backtracks and the capture is the last non-terminator whitespace
character (provided one exists at index ≥ 1 of the run).
-/

/-- The whitespace run at the start of `rest` (the candidate for greedy `\s+`). -/
def wsRun (rest : Chars) : Chars := rest.takeWhile jsSpace

/-- What follows the whitespace run. -/
def wsAfter (rest : Chars) : Chars := rest.dropWhile jsSpace

/-- The whitespace run with trailing line terminators removed (backtracking bound). -/
def wsPre (rest : Chars) : Chars := ((wsRun rest).reverse.dropWhile isLineTerm).reverse

/-- Match `\s+(.+)$` against `rest`; returns `(capture, remainder)` on success. -/
def tryTail (rest : Chars) : Option (Chars × Chars) :=
  if (wsRun rest).isEmpty then none
  else if (wsAfter rest).isEmpty then
    if 2 ≤ (wsPre rest).length then
      some ([(wsPre rest).getLastD ' '], (wsRun rest).drop (wsPre rest).length)
    else none
  else
    some ((wsAfter rest).takeWhile (fun c => !isLineTerm c),
          (wsAfter rest).dropWhile (fun c => !isLineTerm c))

/-- Match `^([•·▪▸■])\s+(.+)$` at the start of `cs` (which must be a line start). -/
def tryMatchB (cs : Chars) : Option (Chars × Chars) :=
  match cs with
  | c :: rest => if glyphB c then tryTail rest else none
  | [] => none

/-- The digit run at the start of `cs` (greedy `\d+`). -/
def digRun (cs : Chars) : Chars := cs.takeWhile Char.isDigit

/-- Match `^(\d+)\.\s+(.+)$` at the start of `cs`; returns `(digits, capture, remainder)`. -/
def tryMatchN (cs : Chars) : Option (Chars × Chars × Chars) :=
  if (digRun cs).isEmpty then none
  else
    match cs.drop (digRun cs).length with
    | '.' :: r =>
      match tryTail r with
      | some (cap, rem) => some (digRun cs, cap, rem)
      | none => none
    | _ => none

theorem wsRun_length_le (rest : Chars) : (wsRun rest).length ≤ rest.length :=
  (List.takeWhile_sublist _).length_le

theorem wsAfter_length_le (rest : Chars) : (wsAfter rest).length ≤ rest.length :=
  (List.dropWhile_sublist _).length_le

theorem tryTail_rem_le {rest cap rem : Chars} (h : tryTail rest = some (cap, rem)) :
    rem.length ≤ rest.length := by
  unfold tryTail at h
  split_ifs at h with h1 h2 h3
  · simp only [Option.some.injEq, Prod.mk.injEq] at h
    obtain ⟨-, h⟩ := h
    subst h
    calc ((wsRun rest).drop (wsPre rest).length).length
        ≤ (wsRun rest).length := (List.drop_sublist _ _).length_le
      _ ≤ rest.length := wsRun_length_le rest
  · simp only [Option.some.injEq, Prod.mk.injEq] at h
    obtain ⟨-, h⟩ := h
    subst h
    calc ((wsAfter rest).dropWhile fun c => !isLineTerm c).length
        ≤ (wsAfter rest).length := (List.dropWhile_sublist _).length_le
      _ ≤ rest.length := wsAfter_length_le rest

theorem tryMatchB_rem_lt {cs cap rem : Chars} (h : tryMatchB cs = some (cap, rem)) :
    rem.length < cs.length := by
  match cs with
  | [] => simp [tryMatchB] at h
  | c :: rest =>
    simp only [tryMatchB] at h
    split_ifs at h
    · have := tryTail_rem_le h
      simp only [List.length_cons]
      omega

theorem tryMatchN_rem_lt {cs ds cap rem : Chars} (h : tryMatchN cs = some (ds, cap, rem)) :
    rem.length < cs.length := by
  unfold tryMatchN at h
  split_ifs at h with h1
  revert h
  split
  · rename_i r hr
    split
    · rename_i cap' rem' hq
      intro h
      simp only [Option.some.injEq, Prod.mk.injEq] at h
      obtain ⟨-, -, h⟩ := h
      subst h
      have h2 := tryTail_rem_le hq
      have h3 : (cs.drop (digRun cs).length).length = r.length + 1 := by
        rw [hr]; simp
      have h4 : (digRun cs).length ≤ cs.length := (List.takeWhile_sublist _).length_le
      simp only [List.length_drop] at h3
      have h6 : (digRun cs).length ≠ 0 := by
        simpa [List.isEmpty_iff, List.length_eq_zero] using h1
      omega
    · intro h; simp at h
  · intro h; simp at h

/-- Fueled scanner for the global replace with `/^([•·▪▸■])\s+(.+)$/gm`,
replacement `'- $2'`.  `st` records whether the current position is a line
start.  Fuel `≥ length` always suffices (each step consumes ≥ 1 character). -/
def scanBF : Nat → Bool → Chars → Chars
  | 0, _, cs => cs
  | _ + 1, _, [] => []
  | fuel + 1, st, c :: rest =>
    if st then
      match tryMatchB (c :: rest) with
      | some (cap, rem) => '-' :: ' ' :: (cap ++ scanBF fuel false rem)
      | none => c :: scanBF fuel (isLineTerm c) rest
    else c :: scanBF fuel (isLineTerm c) rest

/-- Fueled scanner for the global replace with `/^(\d+)\.\s+(.+)$/gm`,
replacement `'$1. $2'`. -/
def scanNF : Nat → Bool → Chars → Chars
  | 0, _, cs => cs
  | _ + 1, _, [] => []
  | fuel + 1, st, c :: rest =>
    if st then
      match tryMatchN (c :: rest) with
      | some (ds, cap, rem) => ds ++ '.' :: ' ' :: (cap ++ scanNF fuel false rem)
      | none => c :: scanNF fuel (isLineTerm c) rest
    else c :: scanNF fuel (isLineTerm c) rest

/-- `markdown.replace(/^([•·▪▸■])\s+(.+)$/gm, '- $2')` (`app.js:431`). -/
def scanB (st : Bool) (cs : Chars) : Chars := scanBF cs.length st cs

/-- `markdown.replace(/^(\d+)\.\s+(.+)$/gm, '$1. $2')` (`app.js:434`). -/
def scanN (st : Bool) (cs : Chars) : Chars := scanNF cs.length st cs

/-- Steps 4–5 of `formatAsMarkdown`: bullet normalization then ordered-list
normalization, both from position 0 (a line start). -/
def listNormalize (cs : Chars) : Chars := scanN true (scanB true cs)

/-- Fueled scanner for `markdown.replace(/\n{3,}/g, '\n\n')` (`app.js:437`). -/
def collapseF : Nat → Chars → Chars
  | 0, cs => cs
  | _ + 1, [] => []
  | fuel + 1, c :: rest =>
    if c = '\n' then
      (if 3 ≤ ((c :: rest).takeWhile (fun x => decide (x = '\n'))).length then ['\n', '\n']
       else (c :: rest).takeWhile (fun x => decide (x = '\n'))) ++
        collapseF fuel ((c :: rest).drop ((c :: rest).takeWhile (fun x => decide (x = '\n'))).length)
    else c :: collapseF fuel rest

/-- `markdown.replace(/\n{3,}/g, '\n\n')`. -/
def collapseNewlines (cs : Chars) : Chars := collapseF cs.length cs

/-- The filtered paragraph array of `formatAsMarkdown`:
`markdown.split('\n\n').filter(p => p.trim())` (`app.js:408`). -/
def paraSplit (text : Chars) : List Chars :=
  (splitNN text).filter (fun p => !(jsTrim p).isEmpty)

/-- The classification pass: `paragraphs.map((para, idx, arr) => ...)` (`app.js:411`). -/
def formatParas (text : Chars) : List Chars :=
  (paraSplit text).mapIdx (fun idx para => classifyPara (paraSplit text) idx para)

/-- `formatAsMarkdown` (`app.js:404-440`). -/
def formatAsMarkdown (text : Chars) : Chars :=
  jsTrim (collapseNewlines (listNormalize (List.intercalate ['\n', '\n'] (formatParas text))))

/-- A positioned text fragment: `item.str` and `item.transform[5]`. -/
structure Frag where
  str : Chars
  y : ℚ

/-- `Math.abs`. -/
def absQ (q : ℚ) : ℚ := if q < 0 then -q else q

/-- The line-break test of `extractPageText`: `lastY !== null && Math.abs(y - lastY) > 5`. -/
def lineBreakAt (lastY : Option ℚ) (y : ℚ) : Bool :=
  match lastY with
  | some ly => decide (5 < absQ (y - ly))
  | none => false

/-- Emission of a finished line: `if (line.trim()) pageText += line.trim() + '\n\n'`. -/
def emitLine (line : Chars) : Chars :=
  if (jsTrim line).isEmpty then [] else jsTrim line ++ ['\n', '\n']

/-- The fragment loop of `extractPageText` (`app.js:367-397`). -/
def pageLoop : Option ℚ → Chars → Chars → List Frag → Chars
  | _, line, pageText, [] => pageText ++ emitLine line
  | lastY, line, pageText, item :: rest =>
    if lineBreakAt lastY item.y then
      pageLoop (some item.y) (item.str ++ [' ']) (pageText ++ emitLine line) rest
    else
      pageLoop (some item.y) (line ++ item.str ++ [' ']) pageText rest

/-- `extractPageText` (`app.js:367-397`). -/
def extractPageText (items : List Frag) : Chars :=
  pageLoop none [] [] items

/-- The page separator `'\n\n---\n\n'` appended after each non-final page. -/
def pageSep : Chars := '\n' :: '\n' :: '-' :: '-' :: '-' :: '\n' :: '\n' :: []

/-- The page-concatenation loop of `extractTextFromPDF` (`app.js:334-351`):
append each page's text, and the separator after every page but the last. -/
def buildFullText : List Chars → Chars
  | [] => []
  | [t] => t
  | t :: rest => t ++ pageSep ++ buildFullText rest

/-- The pure core of `extractTextFromPDF` (`app.js:320-360`): per-page
extraction, concatenation with separators, then Markdown formatting. -/
def extractTextFromPDF (pages : List (List Frag)) : Chars :=
  formatAsMarkdown (buildFullText (pages.map extractPageText))

/-- Number of occurrences of `pat` (at any position, overlapping counted) in `s`. -/
def countSub (pat : Chars) : Chars → Nat
  | [] => if ([] : Chars).take pat.length = pat then 1 else 0
  | c :: rest =>
    (if (c :: rest).take pat.length = pat then 1 else 0) + countSub pat rest

/-- Whether `s` ends with `pat`. -/
def hasTail (pat s : Chars) : Bool :=
  decide (pat.length ≤ s.length) && decide (s.drop (s.length - pat.length) = pat)

/-- Whether `s` contains three consecutive newline characters. -/
def hasTriple : Chars → Bool
  | [] => false
  | c :: r => (decide (c = '\n') && decide (r.take 2 = ['\n', '\n'])) || hasTriple r

/-! ### Equations for the fueled scanners -/

theorem scanBF_nil (fuel : Nat) (st : Bool) : scanBF fuel st [] = [] := by
  cases fuel <;> rfl

theorem scanNF_nil (fuel : Nat) (st : Bool) : scanNF fuel st [] = [] := by
  cases fuel <;> rfl

theorem scanBF_cons (fuel : Nat) (st : Bool) (c : Char) (rest : Chars) :
    scanBF (fuel + 1) st (c :: rest) =
      if st then
        match tryMatchB (c :: rest) with
        | some (cap, rem) => '-' :: ' ' :: (cap ++ scanBF fuel false rem)
        | none => c :: scanBF fuel (isLineTerm c) rest
      else c :: scanBF fuel (isLineTerm c) rest := rfl

theorem scanNF_cons (fuel : Nat) (st : Bool) (c : Char) (rest : Chars) :
    scanNF (fuel + 1) st (c :: rest) =
      if st then
        match tryMatchN (c :: rest) with
        | some (ds, cap, rem) => ds ++ '.' :: ' ' :: (cap ++ scanNF fuel false rem)
        | none => c :: scanNF fuel (isLineTerm c) rest
      else c :: scanNF fuel (isLineTerm c) rest := rfl

theorem scanBF_congr :
    ∀ f1 f2 : Nat, ∀ st : Bool, ∀ cs : Chars, cs.length ≤ f1 → cs.length ≤ f2 →
      scanBF f1 st cs = scanBF f2 st cs := by
  intro f1
  induction f1 with
  | zero =>
    intro f2 st cs h1 _
    have : cs = [] := List.length_eq_zero.mp (Nat.le_zero.mp h1)
    subst this
    rw [scanBF_nil, scanBF_nil]
  | succ a ih =>
    intro f2 st cs h1 h2
    match cs with
    | [] => rw [scanBF_nil, scanBF_nil]
    | c :: rest =>
      match f2, h2 with
      | b + 1, h2 =>
        simp only [List.length_cons] at h1 h2
        rw [scanBF_cons, scanBF_cons]
        cases st with
        | false =>
          rw [if_neg Bool.false_ne_true, if_neg Bool.false_ne_true,
            ih b (isLineTerm c) rest (by omega) (by omega)]
        | true =>
          rw [if_pos rfl, if_pos rfl]
          cases hm : tryMatchB (c :: rest) with
          | none => rw [ih b (isLineTerm c) rest (by omega) (by omega)]
          | some pr =>
            obtain ⟨cap, rem⟩ := pr
            have hlt := tryMatchB_rem_lt hm
            simp only [List.length_cons] at hlt
            dsimp only
            rw [ih b false rem (by omega) (by omega)]

theorem scanNF_congr :
    ∀ f1 f2 : Nat, ∀ st : Bool, ∀ cs : Chars, cs.length ≤ f1 → cs.length ≤ f2 →
      scanNF f1 st cs = scanNF f2 st cs := by
  intro f1
  induction f1 with
  | zero =>
    intro f2 st cs h1 _
    have : cs = [] := List.length_eq_zero.mp (Nat.le_zero.mp h1)
    subst this
    rw [scanNF_nil, scanNF_nil]
  | succ a ih =>
    intro f2 st cs h1 h2
    match cs with
    | [] => rw [scanNF_nil, scanNF_nil]
    | c :: rest =>
      match f2, h2 with
      | b + 1, h2 =>
        simp only [List.length_cons] at h1 h2
        rw [scanNF_cons, scanNF_cons]
        cases st with
        | false =>
          rw [if_neg Bool.false_ne_true, if_neg Bool.false_ne_true,
            ih b (isLineTerm c) rest (by omega) (by omega)]
        | true =>
          rw [if_pos rfl, if_pos rfl]
          cases hm : tryMatchN (c :: rest) with
          | none => rw [ih b (isLineTerm c) rest (by omega) (by omega)]
          | some tr =>
            obtain ⟨ds, cap, rem⟩ := tr
            have hlt := tryMatchN_rem_lt hm
            simp only [List.length_cons] at hlt
            dsimp only
            rw [ih b false rem (by omega) (by omega)]

theorem scanB_nil (st : Bool) : scanB st [] = [] := rfl

theorem scanN_nil (st : Bool) : scanN st [] = [] := rfl

theorem scanB_false (c : Char) (rest : Chars) :
    scanB false (c :: rest) = c :: scanB (isLineTerm c) rest := by
  show scanBF (rest.length + 1) false (c :: rest) = _
  rw [scanBF_cons, if_neg Bool.false_ne_true]
  rfl

theorem scanN_false (c : Char) (rest : Chars) :
    scanN false (c :: rest) = c :: scanN (isLineTerm c) rest := by
  show scanNF (rest.length + 1) false (c :: rest) = _
  rw [scanNF_cons, if_neg Bool.false_ne_true]
  rfl

theorem scanB_true_none {c : Char} {rest : Chars} (h : tryMatchB (c :: rest) = none) :
    scanB true (c :: rest) = c :: scanB (isLineTerm c) rest := by
  show scanBF (rest.length + 1) true (c :: rest) = _
  rw [scanBF_cons, if_pos rfl, h]
  rfl

theorem scanN_true_none {c : Char} {rest : Chars} (h : tryMatchN (c :: rest) = none) :
    scanN true (c :: rest) = c :: scanN (isLineTerm c) rest := by
  show scanNF (rest.length + 1) true (c :: rest) = _
  rw [scanNF_cons, if_pos rfl, h]
  rfl

theorem scanB_true_some {c : Char} {rest cap rem : Chars}
    (h : tryMatchB (c :: rest) = some (cap, rem)) :
    scanB true (c :: rest) = '-' :: ' ' :: (cap ++ scanB false rem) := by
  show scanBF (rest.length + 1) true (c :: rest) = _
  rw [scanBF_cons, if_pos rfl, h]
  have hlt := tryMatchB_rem_lt h
  simp only [List.length_cons] at hlt
  dsimp only
  rw [scanBF_congr rest.length rem.length false rem (by omega) (by omega)]
  rfl

theorem scanN_true_some {c : Char} {rest ds cap rem : Chars}
    (h : tryMatchN (c :: rest) = some (ds, cap, rem)) :
    scanN true (c :: rest) = ds ++ '.' :: ' ' :: (cap ++ scanN false rem) := by
  show scanNF (rest.length + 1) true (c :: rest) = _
  rw [scanNF_cons, if_pos rfl, h]
  have hlt := tryMatchN_rem_lt h
  simp only [List.length_cons] at hlt
  dsimp only
  rw [scanNF_congr rest.length rem.length false rem (by omega) (by omega)]
  rfl

/-! ### Character class facts -/

theorem lineTerm_space {c : Char} (h : isLineTerm c = true) : jsSpace c = true := by
  simp only [isLineTerm, Bool.or_eq_true, decide_eq_true_eq] at h
  rcases h with ((h | h) | h) | h <;> subst h <;> decide

theorem glyph_not_space {c : Char} (h : glyphB c = true) : jsSpace c = false := by
  simp only [glyphB, Bool.or_eq_true, decide_eq_true_eq] at h
  rcases h with (((h | h) | h) | h) | h <;> subst h <;> decide

theorem glyph_not_lineTerm {c : Char} (h : glyphB c = true) : isLineTerm c = false := by
  simp only [glyphB, Bool.or_eq_true, decide_eq_true_eq] at h
  rcases h with (((h | h) | h) | h) | h <;> subst h <;> decide

theorem glyph_not_digit {c : Char} (h : glyphB c = true) : c.isDigit = false := by
  simp only [glyphB, Bool.or_eq_true, decide_eq_true_eq] at h
  rcases h with (((h | h) | h) | h) | h <;> subst h <;> decide

theorem space_not_digit {c : Char} (h : jsSpace c = true) : c.isDigit = false := by
  simp only [jsSpace, Bool.or_eq_true, decide_eq_true_eq] at h
  rcases h with
    (((((((((((((((((((((((h | h) | h) | h) | h) | h) | h) | h) | h) | h) | h) | h) | h) | h) | h) | h) | h) | h) | h) | h) | h) | h) | h) | h) | h <;>
    subst h <;> decide

theorem digit_not_space {c : Char} (h : c.isDigit = true) : jsSpace c = false := by
  by_contra hs
  rw [Bool.not_eq_false] at hs
  rw [space_not_digit hs] at h
  exact Bool.false_ne_true h

theorem digit_not_lineTerm {c : Char} (h : c.isDigit = true) : isLineTerm c = false := by
  by_contra hs
  rw [Bool.not_eq_false] at hs
  have := lineTerm_space hs
  rw [digit_not_space h] at this
  exact Bool.false_ne_true this

theorem space_not_glyph {c : Char} (h : jsSpace c = true) : glyphB c = false := by
  by_contra hs
  rw [Bool.not_eq_false] at hs
  rw [glyph_not_space hs] at h
  exact Bool.false_ne_true h


/-! ### Utility lemmas on trimming and splitting -/

theorem jsTrim_nil : jsTrim [] = [] := rfl

theorem jsTrim_all_space {p : Chars} (h : ∀ c ∈ p, jsSpace c = true) : jsTrim p = [] := by
  unfold jsTrim
  rw [List.dropWhile_eq_nil_iff.mpr h]
  rfl

theorem splitNN_ne_nil (s : Chars) : splitNN s ≠ [] := by
  induction s using splitNN.induct with
  | case1 rest ih => simp [splitNN]
  | case2 c rest hne ih =>
    rw [splitNN.eq_def]
    split
    · simp
    · rename_i c2 rest2 hne2 heq
      injection heq with h1 h2
      subst h2
      cases hq : splitNN rest with
      | nil => exact absurd hq ih
      | cons l ls => simp [List.modifyHead, hq]
    · simp
  | case3 => simp [splitNN]

theorem splitNN_mem_subset : ∀ {s p : Chars}, p ∈ splitNN s → ∀ c ∈ p, c ∈ s := by
  intro s
  induction s using splitNN.induct with
  | case1 rest ih =>
    intro p hp c hc
    rw [splitNN.eq_def] at hp
    simp only at hp
    rw [List.mem_cons] at hp
    rcases hp with hp | hp
    · subst hp; cases hc
    · exact List.mem_cons_of_mem _ (List.mem_cons_of_mem _ (ih hp c hc))
  | case2 d rest hne ih =>
    intro p hp c hc
    rw [splitNN.eq_def] at hp
    revert hp
    split
    · rename_i rest2 heq
      exact absurd heq (by
        intro h
        exact hne _ (List.cons.inj h).1 ((List.cons.inj h).2))
    · rename_i d2 rest2 hne2 heq
      obtain ⟨h1, h2⟩ := List.cons.inj heq
      subst h1; subst h2
      intro hp
      cases hq : splitNN rest with
      | nil => exact absurd hq (splitNN_ne_nil rest)
      | cons l ls =>
        rw [hq] at hp
        simp only [List.modifyHead] at hp
        rw [List.mem_cons] at hp
        rcases hp with hp | hp
        · subst hp
          rcases List.mem_cons.mp hc with hc | hc
          · subst hc; exact List.mem_cons_self _ _
          · exact List.mem_cons_of_mem _
              (ih (by rw [hq]; exact List.mem_cons_self _ _) c hc)
        · exact List.mem_cons_of_mem _
            (ih (by rw [hq]; exact List.mem_cons_of_mem _ hp) c hc)
    · rename_i heq
      exact absurd heq (by simp)
  | case3 =>
    intro p hp c hc
    simp only [splitNN] at hp
    rw [List.mem_singleton] at hp
    subst hp
    cases hc

/-! ### C1: heading classification -/

/-- C1.  In `formatAsMarkdown`, a paragraph is output as `"## " + t` (`t` its
trimmed text) **iff** `5 < length t < 60`, `t` does not match `^\d+\.`, `t`
does not start with a glyph in `{•, ·, ▪, ▸, ■, -, *}`, it is not the last
paragraph, and the raw length of the next paragraph exceeds `length t`.
In particular a paragraph of trimmed length exactly 5 or exactly 60 is never a
heading. -/
theorem heading_iff (arr : List Chars) (idx : Nat) (para : Chars) :
    (classifyPara arr idx para = '#' :: '#' :: ' ' :: jsTrim para ↔
      (5 < (jsTrim para).length ∧ (jsTrim para).length < 60 ∧
        startsNumDot (jsTrim para) = false ∧ startsBulletStar (jsTrim para) = false ∧
        idx < arr.length - 1 ∧ (jsTrim para).length < (arr.getD (idx + 1) []).length)) ∧
    ((jsTrim para).length = 5 → classifyPara arr idx para = jsTrim para) ∧
    ((jsTrim para).length = 60 → classifyPara arr idx para = jsTrim para) := by
  refine ⟨⟨fun h => ?_, fun hc => ?_⟩, fun h5 => ?_, fun h60 => ?_⟩
  · by_cases hc : 5 < (jsTrim para).length ∧ (jsTrim para).length < 60 ∧
        startsNumDot (jsTrim para) = false ∧ startsBulletStar (jsTrim para) = false ∧
        idx < arr.length - 1 ∧ (jsTrim para).length < (arr.getD (idx + 1) []).length
    · exact hc
    · unfold classifyPara at h
      rw [if_neg hc] at h
      have := congrArg List.length h
      simp only [List.length_cons] at this
      omega
  · unfold classifyPara
    rw [if_pos hc]
  · unfold classifyPara
    rw [if_neg]
    rintro ⟨h1, -⟩
    omega
  · unfold classifyPara
    rw [if_neg]
    rintro ⟨-, h2, -⟩
    omega

/-! ### C9: totality / empty page -/

/-- C9.  `extractPageText` is total in this embedding; a page with zero
fragments yields the empty string. -/
theorem extractPageText_empty : extractPageText [] = [] := rfl

/-! ### C10: whitespace-only input -/

/-- C10.  `formatAsMarkdown` maps the empty string to the empty string, and
any input consisting only of whitespace to the empty string. -/
theorem formatAsMarkdown_whitespace :
    formatAsMarkdown [] = [] ∧
    ∀ s : Chars, (∀ c ∈ s, jsSpace c = true) → formatAsMarkdown s = [] := by
  constructor
  · rfl
  · intro s hs
    have hp : paraSplit s = [] := by
      unfold paraSplit
      rw [List.filter_eq_nil_iff]
      intro p hp
      have : jsTrim p = [] :=
        jsTrim_all_space (fun c hc => hs c (splitNN_mem_subset hp c hc))
      simp [this]
    unfold formatAsMarkdown formatParas
    rw [hp]
    rfl

/-- Witness for C10 at a concrete whitespace-only input. -/
theorem formatAsMarkdown_whitespace_witness : formatAsMarkdown "  \n\n \t ".data = [] :=
  formatAsMarkdown_whitespace.2 "  \n\n \t ".data (by decide)

/-! ### C2, C4, C5: line reconstruction and page assembly -/

theorem extractPageText_pair (s1 s2 : Chars) (y1 y2 : ℚ) :
    extractPageText [⟨s1, y1⟩, ⟨s2, y2⟩] =
      if 5 < absQ (y2 - y1) then emitLine (s1 ++ [' ']) ++ emitLine (s2 ++ [' '])
      else emitLine (s1 ++ ' ' :: (s2 ++ [' '])) := by
  show pageLoop none [] [] _ = _
  by_cases h : 5 < absQ (y2 - y1)
  · rw [if_pos h]
    simp [pageLoop, lineBreakAt, h]
  · rw [if_neg h]
    simp [pageLoop, lineBreakAt, h]

/-- C2.  Two consecutive fragments merge into one line exactly when their
`y` distance is at most the gap threshold 5; a distance `> 5` starts a new
line.  At distance exactly 5 (`y = 100, 105`) the page yields the single line
`"A B"`; at distance 6 it yields two lines. -/
theorem gap_threshold_boundary :
    (∀ (s1 s2 : Chars) (y1 y2 : ℚ),
      extractPageText [⟨s1, y1⟩, ⟨s2, y2⟩] =
        if 5 < absQ (y2 - y1) then emitLine (s1 ++ [' ']) ++ emitLine (s2 ++ [' '])
        else emitLine (s1 ++ ' ' :: (s2 ++ [' ']))) ∧
    extractPageText [⟨"A".data, 100⟩, ⟨"B".data, 105⟩] = "A B\n\n".data ∧
    extractPageText [⟨"A".data, 100⟩, ⟨"B".data, 106⟩] = "A\n\nB\n\n".data := by
  refine ⟨extractPageText_pair, ?_, ?_⟩
  · rw [extractPageText_pair, if_neg (by simp [absQ]; norm_num)]
    decide
  · rw [extractPageText_pair, if_pos (by simp [absQ]; norm_num)]
    decide

set_option maxRecDepth 10000 in
/-- C4.  End-to-end on one page: a short title fragment above a longer body
fragment (gap 50 > 5) produces the heading plus body Markdown. -/
theorem chapter_one_end_to_end :
    extractTextFromPDF [[⟨"Chapter One".data, 700⟩,
        ⟨"This is a longer line of body text that follows the title.".data, 650⟩]] =
      "## Chapter One\n\nThis is a longer line of body text that follows the title.".data := by
  have h := extractPageText_pair "Chapter One".data
    "This is a longer line of body text that follows the title.".data 700 650
  rw [if_pos (by simp [absQ]; norm_num)] at h
  unfold extractTextFromPDF
  simp only [List.map]
  rw [h]
  decide

theorem buildFullText_intercalate :
    ∀ texts : List Chars, buildFullText texts = List.intercalate pageSep texts := by
  intro texts
  induction texts with
  | nil => rfl
  | cons t rest ih =>
    cases rest with
    | nil => simp [buildFullText, List.intercalate]
    | cons u rest2 =>
      show t ++ pageSep ++ buildFullText (u :: rest2) = _
      rw [ih]
      simp [List.intercalate, List.intersperse_cons_cons, List.append_assoc]

set_option maxRecDepth 10000 in
/-- C5.  The page separator `"\n\n---\n\n"` is appended after every page but
the last (so pages are joined by `intercalate`), and the two-page
`"Intro"`/`"Details"` document yields `"Intro\n\n---\n\nDetails"`, containing
that string exactly once and not ending with the separator. -/
theorem page_separator_between_pages :
    (∀ texts : List Chars, buildFullText texts = List.intercalate pageSep texts) ∧
    extractTextFromPDF [[⟨"Intro".data, 0⟩], [⟨"Details".data, 0⟩]] =
      "Intro\n\n---\n\nDetails".data ∧
    countSub "Intro\n\n---\n\nDetails".data
      (extractTextFromPDF [[⟨"Intro".data, 0⟩], [⟨"Details".data, 0⟩]]) = 1 ∧
    hasTail pageSep (extractTextFromPDF [[⟨"Intro".data, 0⟩], [⟨"Details".data, 0⟩]]) =
      false := by
  refine ⟨buildFullText_intercalate, ?_, ?_, ?_⟩ <;> decide

/-! ### C3: bullet normalization -/

theorem takeWhile_append_all {p : Char → Bool} :
    ∀ xs ys : Chars, (∀ c ∈ xs, p c = true) → (∀ y t', ys = y :: t' → p y = false) →
      (xs ++ ys).takeWhile p = xs ∧ (xs ++ ys).dropWhile p = ys := by
  intro xs
  induction xs with
  | nil =>
    intro ys h1 h2
    cases ys with
    | nil => exact ⟨rfl, rfl⟩
    | cons y t =>
      exact ⟨List.takeWhile_cons_of_neg (by simp [h2 y t rfl]),
        List.dropWhile_cons_of_neg (by simp [h2 y t rfl])⟩
  | cons x xs ih =>
    intro ys h1 h2
    have hx : p x = true := h1 x (List.mem_cons_self _ _)
    have := ih ys (fun c hc => h1 c (List.mem_cons_of_mem _ hc)) h2
    exact ⟨by simp only [List.cons_append, List.takeWhile_cons_of_pos hx, this.1],
      by simp only [List.cons_append, List.dropWhile_cons_of_pos hx, this.2]⟩

/-- Counterexample to C3 as stated: `'*'` is in the claimed glyph set, and
`"* First item"` is a line of the claimed shape, yet `formatAsMarkdown`
leaves it unchanged instead of rewriting it to `"- First item"`. -/
theorem bullet_star_not_rewritten :
    formatAsMarkdown "* First item".data = "* First item".data ∧
    "* First item".data ≠ "- First item".data := by
  constructor
  · decide
  · decide

/-- C3 (amended).  Every line starting with a glyph from `{•, ·, ▪, ▸, ■}`
(the set in the replace regex — without `-` and `*`) followed by whitespace
and text is rewritten by the bullet-normalization step to `"- "` plus the
text; `•`, `▪` and `·` normalize identically end-to-end. -/
theorem bullet_normalization_amended :
    (∀ (g : Char) (ws t post : Chars),
      glyphB g = true → ws ≠ [] → (∀ c ∈ ws, jsSpace c = true) →
      t ≠ [] → (∀ y t2, t = y :: t2 → jsSpace y = false) →
      (∀ c ∈ t, isLineTerm c = false) →
      (∀ y t2, post = y :: t2 → isLineTerm y = true) →
      scanB true (g :: (ws ++ (t ++ post))) = '-' :: ' ' :: (t ++ scanB false post)) ∧
    formatAsMarkdown "• First item".data = "- First item".data ∧
    formatAsMarkdown "▪ First item".data = "- First item".data ∧
    formatAsMarkdown "· First item".data = "- First item".data := by
  refine ⟨?_, by decide, by decide, by decide⟩
  intro g ws t post hg hws hws2 ht hthead htl hpost
  have hhead : ∀ y t2, t ++ post = y :: t2 → jsSpace y = false := by
    intro y t2 h
    cases t with
    | nil => exact absurd rfl ht
    | cons a t3 =>
      rw [List.cons_append] at h
      exact (List.cons.inj h).1 ▸ hthead a t3 rfl
  have h1 := takeWhile_append_all ws (t ++ post) hws2 hhead
  have h2 : (t ++ post).takeWhile (fun c => !isLineTerm c) = t ∧
      (t ++ post).dropWhile (fun c => !isLineTerm c) = post := by
    refine takeWhile_append_all t post (fun c hc => by simp [htl c hc]) ?_
    intro y t2 h
    simp [hpost y t2 h]
  have hmatch : tryMatchB (g :: (ws ++ (t ++ post))) = some (t, post) := by
    unfold tryMatchB
    dsimp only
    rw [if_pos hg]
    unfold tryTail wsRun wsAfter
    rw [h1.1, h1.2]
    rw [if_neg (by simp [List.isEmpty_iff, hws]),
      if_neg (by simp only [List.isEmpty_iff]; intro hc; exact ht (List.append_eq_nil.mp hc).1)]
    rw [h2.1, h2.2]
  rw [scanB_true_some hmatch]

/-- Witness for the amended C3 at the concrete line `"• First item"`. -/
theorem bullet_normalization_amended_witness :
    scanB true ('•' :: ([' '] ++ ("First item".data ++ []))) =
      '-' :: ' ' :: ("First item".data ++ scanB false []) :=
  bullet_normalization_amended.1 '•' [' '] "First item".data []
    (by decide) (by decide) (by decide) (by decide)
    (by intro y t2 h; cases h; decide) (by decide)
    (by intro y t2 h; cases h)

/-! ### C7: blank-line collapse -/

theorem collapseF_nil (fuel : Nat) : collapseF fuel [] = [] := by
  cases fuel <;> rfl

theorem collapseF_cons (fuel : Nat) (c : Char) (rest : Chars) :
    collapseF (fuel + 1) (c :: rest) =
      if c = '\n' then
        (if 3 ≤ ((c :: rest).takeWhile (fun x => decide (x = '\n'))).length then ['\n', '\n']
         else (c :: rest).takeWhile (fun x => decide (x = '\n'))) ++
          collapseF fuel ((c :: rest).drop
            ((c :: rest).takeWhile (fun x => decide (x = '\n'))).length)
      else c :: collapseF fuel rest := rfl

theorem collapseF_congr :
    ∀ f1 f2 : Nat, ∀ cs : Chars, cs.length ≤ f1 → cs.length ≤ f2 →
      collapseF f1 cs = collapseF f2 cs := by
  intro f1
  induction f1 with
  | zero =>
    intro f2 cs h1 _
    have : cs = [] := List.length_eq_zero.mp (Nat.le_zero.mp h1)
    subst this
    rw [collapseF_nil, collapseF_nil]
  | succ a ih =>
    intro f2 cs h1 h2
    match cs with
    | [] => rw [collapseF_nil, collapseF_nil]
    | c :: rest =>
      match f2, h2 with
      | b + 1, h2 =>
        simp only [List.length_cons] at h1 h2
        rw [collapseF_cons, collapseF_cons]
        by_cases hc : c = '\n'
        · rw [if_pos hc, if_pos hc]
          have hn : 1 ≤ ((c :: rest).takeWhile (fun x => decide (x = '\n'))).length := by
            rw [List.takeWhile_cons_of_pos (by simp [hc])]
            simp
          have hd : ((c :: rest).drop
              ((c :: rest).takeWhile (fun x => decide (x = '\n'))).length).length ≤ rest.length := by
            simp only [List.length_drop, List.length_cons]
            omega
          rw [ih b _ (by omega) (by omega)]
        · rw [if_neg hc, if_neg hc, ih b rest (by omega) (by omega)]

theorem collapse_nil : collapseNewlines [] = [] := rfl

theorem collapse_cons_ne {c : Char} (rest : Chars) (h : ¬ c = '\n') :
    collapseNewlines (c :: rest) = c :: collapseNewlines rest := by
  show collapseF (rest.length + 1) (c :: rest) = _
  rw [collapseF_cons, if_neg h]
  rfl

theorem collapse_cons_nl (rest : Chars) :
    collapseNewlines ('\n' :: rest) =
      (if 3 ≤ (('\n' :: rest).takeWhile (fun x => decide (x = '\n'))).length then ['\n', '\n']
       else ('\n' :: rest).takeWhile (fun x => decide (x = '\n'))) ++
        collapseNewlines (('\n' :: rest).drop
          (('\n' :: rest).takeWhile (fun x => decide (x = '\n'))).length) := by
  show collapseF (rest.length + 1) ('\n' :: rest) = _
  rw [collapseF_cons, if_pos rfl]
  have hn : 1 ≤ (('\n' :: rest).takeWhile (fun x => decide (x = '\n'))).length := by
    rw [List.takeWhile_cons_of_pos (by simp)]
    simp
  congr 1
  apply collapseF_congr
  · simp only [List.length_drop, List.length_cons]; omega
  · simp only [List.length_drop, List.length_cons]; omega

theorem drop_takeWhile_length (p : Char → Bool) (l : Chars) :
    l.drop (l.takeWhile p).length = l.dropWhile p := by
  have h := List.takeWhile_append_dropWhile (p := p) (l := l)
  calc l.drop (l.takeWhile p).length
      = (l.takeWhile p ++ l.dropWhile p).drop (l.takeWhile p).length := by rw [h]
    _ = l.dropWhile p := List.drop_left _ _

theorem hasTriple_cons (c : Char) (r : Chars) :
    hasTriple (c :: r) =
      ((decide (c = '\n') && decide (r.take 2 = ['\n', '\n'])) || hasTriple r) := rfl

theorem hasTriple_tail {c : Char} {r : Chars} (h : hasTriple (c :: r) = false) :
    hasTriple r = false := by
  rw [hasTriple_cons] at h
  exact (Bool.or_eq_false_iff.mp h).2

theorem collapse_head (cs : Chars) : (collapseNewlines cs).head? = cs.head? := by
  match cs with
  | [] => rfl
  | c :: rest =>
    by_cases hc : c = '\n'
    · subst hc
      rw [collapse_cons_nl]
      rw [List.takeWhile_cons_of_pos (by simp)]
      split
      · rfl
      · rfl
    · rw [collapse_cons_ne rest hc]
      rfl

theorem hasTriple_n_append {X : Chars} (hX : hasTriple X = false)
    (hhead : ∀ x, X.head? = some x → ¬ x = '\n') :
    hasTriple ('\n' :: X) = false := by
  cases X with
  | nil => decide
  | cons x X2 =>
    have hx : ¬ x = '\n' := hhead x rfl
    rw [hasTriple_cons]
    simp [hx, hX]

theorem hasTriple_nn_append {X : Chars} (hX : hasTriple X = false)
    (hhead : ∀ x, X.head? = some x → ¬ x = '\n') :
    hasTriple ('\n' :: '\n' :: X) = false := by
  cases X with
  | nil => decide
  | cons x X2 =>
    have hx : ¬ x = '\n' := hhead x rfl
    rw [hasTriple_cons]
    have h2 := hasTriple_n_append hX hhead
    simp [hx, h2]

theorem collapse_noTriple : ∀ cs : Chars, hasTriple (collapseNewlines cs) = false := by
  suffices h : ∀ k : Nat, ∀ cs : Chars, cs.length ≤ k →
      hasTriple (collapseNewlines cs) = false by
    intro cs; exact h cs.length cs le_rfl
  intro k
  induction k with
  | zero =>
    intro cs h1
    have : cs = [] := List.length_eq_zero.mp (Nat.le_zero.mp h1)
    subst this
    rfl
  | succ a ih =>
    intro cs h1
    match cs with
    | [] => rfl
    | c :: rest =>
      simp only [List.length_cons] at h1
      by_cases hc : c = '\n'
      · subst hc
        rw [collapse_cons_nl]
        have hdropW : ('\n' :: rest).drop
            ((('\n' :: rest)).takeWhile (fun x => decide (x = '\n'))).length =
            rest.dropWhile (fun x => decide (x = '\n')) := by
          rw [drop_takeWhile_length]
          exact List.dropWhile_cons_of_pos (by simp)
        rw [hdropW]
        have hX : hasTriple (collapseNewlines
            (rest.dropWhile (fun x => decide (x = '\n')))) = false := by
          apply ih
          have := (List.dropWhile_sublist (l := rest)
            (p := fun x => decide (x = '\n'))).length_le
          omega
        have hXhead : ∀ x, (collapseNewlines
            (rest.dropWhile (fun x => decide (x = '\n')))).head? = some x →
              ¬ x = '\n' := by
          intro x hx
          rw [collapse_head] at hx
          have := List.head?_dropWhile_not (fun x => decide (x = '\n')) rest
          rw [hx] at this
          simpa using this
        have hrun : ('\n' :: rest).takeWhile (fun x => decide (x = '\n')) =
            '\n' :: rest.takeWhile (fun x => decide (x = '\n')) :=
          List.takeWhile_cons_of_pos (by simp)
        rw [hrun]
        rcases hq : rest.takeWhile (fun x => decide (x = '\n')) with _ | ⟨w, ws⟩
        · rw [if_neg (by simp)]
          rw [List.singleton_append]
          exact hasTriple_n_append hX hXhead
        · have hw : w = '\n' := by
            have : w ∈ rest.takeWhile (fun x => decide (x = '\n')) := by
              rw [hq]; exact List.mem_cons_self _ _
            simpa using List.mem_takeWhile_imp this
          subst hw
          by_cases h3 : 3 ≤ ('\n' :: '\n' :: ws).length
          · rw [if_pos h3]
            exact hasTriple_nn_append hX hXhead
          · rw [if_neg h3]
            have hws : ws = [] := by
              simp only [List.length_cons, not_le] at h3
              exact List.length_eq_zero.mp (by omega)
            subst hws
            exact hasTriple_nn_append hX hXhead
      · rw [collapse_cons_ne rest hc, hasTriple_cons]
        simp only [decide_eq_true_eq, hc, decide_False, Bool.false_and, Bool.false_or]
        exact ih rest (by omega)

theorem hasTriple_dropWhile (p : Char → Bool) :
    ∀ x : Chars, hasTriple x = false → hasTriple (x.dropWhile p) = false := by
  intro x
  induction x with
  | nil => intro h; exact h
  | cons c r ih =>
    intro h
    rw [List.dropWhile_cons]
    split
    · exact ih (hasTriple_tail h)
    · exact h

theorem hasTriple_take :
    ∀ (x : Chars) (k : Nat), hasTriple x = false → hasTriple (x.take k) = false := by
  intro x
  induction x with
  | nil => intro k h; simp [h]
  | cons c r ih =>
    intro k h
    cases k with
    | zero => rfl
    | succ k2 =>
      rw [List.take_succ_cons, hasTriple_cons]
      have h2 : hasTriple (r.take k2) = false := ih k2 (hasTriple_tail h)
      have h3 : (decide (c = '\n') && decide ((r.take k2).take 2 = ['\n', '\n'])) = false := by
        rw [hasTriple_cons] at h
        rcases Bool.and_eq_false_iff.mp (Bool.or_eq_false_iff.mp h).1 with hcf | hrf
        · rw [hcf, Bool.false_and]
        · rw [List.take_take]
          have : ¬ r.take (min 2 k2) = ['\n', '\n'] := by
            intro heq
            have hlen := congrArg List.length heq
            simp only [List.length_take, List.length_cons, List.length_nil] at hlen
            have hmin : min 2 k2 = 2 := by omega
            rw [hmin] at heq
            rw [heq] at hrf
            simp at hrf
          simp [this]
      rw [h3, Bool.false_or]
      exact h2

theorem dropWhile_eq_drop_exists (p : Char → Bool) :
    ∀ x : Chars, ∃ i : Nat, x.dropWhile p = x.drop i := by
  intro x
  induction x with
  | nil => exact ⟨0, rfl⟩
  | cons c r ih =>
    rw [List.dropWhile_cons]
    by_cases hc : p c = true
    · obtain ⟨i, hi⟩ := ih
      exact ⟨i + 1, by rw [if_pos hc]; exact hi⟩
    · exact ⟨0, by rw [if_neg hc]; rfl⟩

theorem hasTriple_jsTrim {x : Chars} (h : hasTriple x = false) :
    hasTriple (jsTrim x) = false := by
  unfold jsTrim
  have h1 : hasTriple (x.dropWhile jsSpace) = false := hasTriple_dropWhile jsSpace x h
  obtain ⟨i, hi⟩ := dropWhile_eq_drop_exists jsSpace (x.dropWhile jsSpace).reverse
  rw [hi, List.reverse_drop, List.reverse_reverse]
  exact hasTriple_take _ _ h1

theorem formatAsMarkdown_noTriple (s : Chars) : hasTriple (formatAsMarkdown s) = false := by
  unfold formatAsMarkdown
  exact hasTriple_jsTrim (collapse_noTriple _)

theorem getLast?_drop_of_lt {l : Chars} {n : Nat} (h : n < l.length) :
    (l.drop n).getLast? = l.getLast? := by
  have hne : l.drop n ≠ [] := by
    intro heq
    have := congrArg List.length heq
    simp only [List.length_drop, List.length_nil] at this
    omega
  have hsome : (l.drop n).getLast?.isSome := by
    cases hq : (l.drop n).getLast? with
    | none => exact absurd (List.getLast?_eq_none_iff.mp hq) hne
    | some x => rfl
  conv_rhs => rw [← List.take_append_drop n l]
  rw [List.getLast?_append, Option.or_of_isSome hsome]

theorem takeWhile_length_lt_of_getLast {p : Char → Bool} {l : Chars}
    (hne : l ≠ []) (hlast : ∀ x, l.getLast? = some x → p x = false) :
    (l.takeWhile p).length < l.length := by
  by_contra hge
  push_neg at hge
  have heq : l.takeWhile p = l :=
    (List.takeWhile_sublist _).eq_of_length
      (le_antisymm (List.takeWhile_sublist _).length_le hge)
  have hall := List.takeWhile_eq_self_iff.mp heq
  cases hq : l.getLast? with
  | none => exact hne (List.getLast?_eq_none_iff.mp hq)
  | some x =>
    have hx : x ∈ l := List.mem_of_mem_getLast? (Option.mem_def.mpr hq)
    have := hall x hx
    rw [hlast x hq] at this
    exact Bool.false_ne_true this

theorem collapse_append :
    ∀ pre post : Chars, pre.getLast? ≠ some '\n' →
      collapseNewlines (pre ++ post) = collapseNewlines pre ++ collapseNewlines post := by
  suffices h : ∀ k : Nat, ∀ pre post : Chars, pre.length ≤ k → pre.getLast? ≠ some '\n' →
      collapseNewlines (pre ++ post) = collapseNewlines pre ++ collapseNewlines post by
    intro pre post hl; exact h pre.length pre post le_rfl hl
  intro k
  induction k with
  | zero =>
    intro pre post h1 _
    have : pre = [] := List.length_eq_zero.mp (Nat.le_zero.mp h1)
    subst this
    simp [collapse_nil]
  | succ a ih =>
    intro pre post h1 hlast
    match pre with
    | [] => simp [collapse_nil]
    | c :: pre2 =>
      simp only [List.length_cons] at h1
      by_cases hc : c = '\n'
      · subst hc
        have hlastval : ∀ x, ('\n' :: pre2).getLast? = some x →
            (fun x => decide (x = '\n')) x = false := by
          intro x hx
          simp only [decide_eq_false_iff_not]
          intro hxn
          subst hxn
          exact hlast hx
        have hstop := takeWhile_length_lt_of_getLast (List.cons_ne_nil _ _) hlastval
        set tw := ('\n' :: pre2).takeWhile (fun x => decide (x = '\n')) with htwdef
        have hn1 : 1 ≤ tw.length := by
          rw [htwdef, List.takeWhile_cons_of_pos (by simp)]
          simp
        have htwfull : ('\n' :: (pre2 ++ post)).takeWhile (fun x => decide (x = '\n')) = tw := by
          rw [← List.cons_append, List.takeWhile_append, if_neg (by rw [← htwdef]; omega)]
        have hdropfull : ('\n' :: (pre2 ++ post)).drop tw.length =
            ('\n' :: pre2).drop tw.length ++ post := by
          rw [← List.cons_append]
          exact List.drop_append_of_le_length (le_of_lt hstop)
        rw [List.cons_append, collapse_cons_nl (pre2 ++ post), collapse_cons_nl pre2]
        rw [htwfull, hdropfull]
        have hlenlt : (('\n' :: pre2).drop tw.length).length ≤ a := by
          simp only [List.length_drop, List.length_cons]
          omega
        have hlast3 : (('\n' :: pre2).drop tw.length).getLast? ≠ some '\n' := by
          rw [getLast?_drop_of_lt hstop]
          exact hlast
        rw [ih _ post hlenlt hlast3]
        rw [List.append_assoc]
      · rw [List.cons_append, collapse_cons_ne _ hc, collapse_cons_ne _ hc, List.cons_append]
        have hlast2 : pre2.getLast? ≠ some '\n' := by
          cases pre2 with
          | nil => simp
          | cons d pre3 => rw [← List.getLast?_cons_cons]; exact hlast
        rw [ih pre2 post (by omega) hlast2]

theorem collapse_replicate_append {post : Chars} {n : Nat} (h3 : 3 ≤ n)
    (hpost : ∀ y t, post = y :: t → y ≠ '\n') :
    collapseNewlines (List.replicate n '\n' ++ post) =
      '\n' :: '\n' :: collapseNewlines post := by
  obtain ⟨m, rfl⟩ : ∃ m, n = m + 3 := ⟨n - 3, by omega⟩
  have hall : ∀ c ∈ List.replicate (m + 3) '\n', (fun x => decide (x = '\n')) c = true := by
    intro c hc
    simp [List.eq_of_mem_replicate hc]
  have hph : ∀ y t, post = y :: t → (fun x => decide (x = '\n')) y = false := by
    intro y t ht
    simpa using hpost y t ht
  have htw := takeWhile_append_all (List.replicate (m + 3) '\n') post hall hph
  have hrepl : List.replicate (m + 3) '\n' ++ post =
      '\n' :: (List.replicate (m + 2) '\n' ++ post) := by
    rw [List.replicate_succ, List.cons_append]
  rw [hrepl, collapse_cons_nl, ← hrepl, htw.1]
  have hlenr : (List.replicate (m + 3) '\n').length = m + 3 := List.length_replicate _ _
  rw [if_pos (by omega)]
  have hdrop : (List.replicate (m + 3) '\n' ++ post).drop
      (List.replicate (m + 3) '\n').length = post := List.drop_left _ _
  rw [hdrop]
  rfl

set_option maxRecDepth 10000 in
/-- C7.  Step 6 collapses every run of 3-or-more newlines (flanked by
non-newline context) to exactly two; an input with 5 consecutive newlines
comes out with exactly 2; and the final output of `formatAsMarkdown` never
contains three consecutive newlines. -/
theorem blank_line_collapse :
    (∀ (pre post : Chars) (n : Nat), 3 ≤ n → pre.getLast? ≠ some '\n' →
      (∀ y t, post = y :: t → y ≠ '\n') →
      collapseNewlines (pre ++ (List.replicate n '\n' ++ post)) =
        collapseNewlines pre ++ '\n' :: '\n' :: collapseNewlines post) ∧
    collapseNewlines "A\n\n\n\n\nB".data = "A\n\nB".data ∧
    ∀ s : Chars, hasTriple (formatAsMarkdown s) = false := by
  refine ⟨?_, by decide, formatAsMarkdown_noTriple⟩
  intro pre post n h3 hpre hpost
  rw [collapse_append pre _ hpre, collapse_replicate_append h3 hpost]

/-- Witness for C7 at `pre = "A"`, five newlines, `post = "B"`. -/
theorem blank_line_collapse_witness :
    collapseNewlines ("A".data ++ (List.replicate 5 '\n' ++ "B".data)) =
      collapseNewlines "A".data ++ '\n' :: '\n' :: collapseNewlines "B".data :=
  blank_line_collapse.1 "A".data "B".data 5 (by decide) (by decide)
    (by intro y t h; cases h; decide)

/-! ### Line-group decomposition of `extractPageText` and shape of the classification pass -/

/-- The ordered line strings produced by grouping consecutive fragments while
the gap threshold is not exceeded (current accumulated line, last `y`). -/
def glLoop (line : Chars) (ly : ℚ) : List Frag → List Chars
  | [] => [jsTrim line]
  | f :: rest =>
    if lineBreakAt (some ly) f.y then jsTrim line :: glLoop (f.str ++ [' ']) f.y rest
    else glLoop (line ++ f.str ++ [' ']) f.y rest

/-- The ordered line strings of a page's fragment sequence. -/
def lineStrings : List Frag → List Chars
  | [] => []
  | f :: rest => glLoop (f.str ++ [' ']) f.y rest

/-- Emit the non-blank lines, each terminated by the paragraph marker, in order. -/
def emitAll (ls : List Chars) : Chars :=
  ls.foldr (fun t acc => (if t.isEmpty then [] else t ++ ['\n', '\n']) ++ acc) []

theorem pageLoop_glLoop :
    ∀ (rest : List Frag) (ly : ℚ) (line pt : Chars),
      pageLoop (some ly) line pt rest = pt ++ emitAll (glLoop line ly rest) := by
  intro rest
  induction rest with
  | nil =>
    intro ly line pt
    show pt ++ emitLine line = _
    simp [glLoop, emitAll, emitLine]
  | cons f rest ih =>
    intro ly line pt
    show (if lineBreakAt (some ly) f.y then _ else _) = _
    by_cases hb : lineBreakAt (some ly) f.y
    · rw [if_pos hb]
      rw [ih]
      show (pt ++ emitLine line) ++ _ = _
      simp only [glLoop, if_pos hb, emitAll, List.foldr_cons]
      simp [emitLine, List.append_assoc, emitAll]
    · rw [if_neg hb]
      rw [ih]
      simp only [glLoop, if_neg hb]

theorem extractPageText_emitAll :
    ∀ items : List Frag, extractPageText items = emitAll (lineStrings items) := by
  intro items
  cases items with
  | nil => rfl
  | cons f rest =>
    show pageLoop (some f.y) (f.str ++ [' ']) [] rest = emitAll (lineStrings (f :: rest))
    rw [pageLoop_glLoop]
    rfl

theorem classifyPara_nil (arr : List Chars) (idx : Nat) : classifyPara arr idx [] = [] := by
  unfold classifyPara
  rw [if_neg]
  · rfl
  · rintro ⟨h1, -⟩
    simp [jsTrim_nil] at h1

theorem mapIdx_getD :
    ∀ (l : List Chars) (f : Nat → Chars → Chars) (i : Nat),
      (l.mapIdx f).getD i [] = if i < l.length then f i (l.getD i []) else [] := by
  intro l
  induction l with
  | nil => intro f i; simp
  | cons x xs ih =>
    intro f i
    rw [List.mapIdx_cons]
    cases i with
    | zero => simp
    | succ j =>
      simp only [List.getD_cons_succ, List.length_cons]
      rw [ih (fun i => f (i + 1)) j]
      by_cases hj : j < xs.length
      · rw [if_pos hj, if_pos (by omega)]
      · rw [if_neg hj, if_neg (by omega)]

/-! ### C6: idempotence of list normalization.  Scanner basics. -/

theorem scanB_cons_any {c : Char} {rest : Chars} (h : tryMatchB (c :: rest) = none) :
    ∀ st, scanB st (c :: rest) = c :: scanB (isLineTerm c) rest := by
  intro st
  cases st with
  | false => exact scanB_false c rest
  | true => exact scanB_true_none h

theorem scanN_cons_any {c : Char} {rest : Chars} (h : tryMatchN (c :: rest) = none) :
    ∀ st, scanN st (c :: rest) = c :: scanN (isLineTerm c) rest := by
  intro st
  cases st with
  | false => exact scanN_false c rest
  | true => exact scanN_true_none h

theorem tryMatchB_none_of_not_glyph {c : Char} {rest : Chars} (h : glyphB c = false) :
    tryMatchB (c :: rest) = none := by
  unfold tryMatchB
  dsimp only
  rw [h]
  rfl

theorem tryMatchN_none_of_not_digit {c : Char} {rest : Chars} (h : c.isDigit = false) :
    tryMatchN (c :: rest) = none := by
  unfold tryMatchN digRun
  rw [List.takeWhile_cons_of_neg (by simp [h])]
  rfl

theorem scanB_all_space :
    ∀ cs : Chars, (∀ c ∈ cs, jsSpace c = true) → ∀ st, scanB st cs = cs := by
  intro cs
  induction cs with
  | nil => intro _ st; exact scanB_nil st
  | cons c rest ih =>
    intro h st
    have hc := h c (List.mem_cons_self _ _)
    rw [scanB_cons_any (tryMatchB_none_of_not_glyph (space_not_glyph hc)) st,
      ih (fun d hd => h d (List.mem_cons_of_mem _ hd)) (isLineTerm c)]

theorem scanN_all_space :
    ∀ cs : Chars, (∀ c ∈ cs, jsSpace c = true) → ∀ st, scanN st cs = cs := by
  intro cs
  induction cs with
  | nil => intro _ st; exact scanN_nil st
  | cons c rest ih =>
    intro h st
    have hc := h c (List.mem_cons_self _ _)
    rw [scanN_cons_any (tryMatchN_none_of_not_digit (space_not_digit hc)) st,
      ih (fun d hd => h d (List.mem_cons_of_mem _ hd)) (isLineTerm c)]

theorem scanB_false_head (cs : Chars) : (scanB false cs).head? = cs.head? := by
  cases cs with
  | nil => rfl
  | cons c rest => rw [scanB_false]; rfl

theorem scanN_false_head (cs : Chars) : (scanN false cs).head? = cs.head? := by
  cases cs with
  | nil => rfl
  | cons c rest => rw [scanN_false]; rfl

theorem scanB_append_nonLT :
    ∀ xs ys : Chars, (∀ c ∈ xs, isLineTerm c = false) →
      scanB false (xs ++ ys) = xs ++ scanB false ys := by
  intro xs
  induction xs with
  | nil => intro ys _; rfl
  | cons x xs2 ih =>
    intro ys h
    rw [List.cons_append, scanB_false, h x (List.mem_cons_self _ _),
      ih ys (fun d hd => h d (List.mem_cons_of_mem _ hd)), List.cons_append]

theorem scanN_append_nonLT :
    ∀ xs ys : Chars, (∀ c ∈ xs, isLineTerm c = false) →
      scanN false (xs ++ ys) = xs ++ scanN false ys := by
  intro xs
  induction xs with
  | nil => intro ys _; rfl
  | cons x xs2 ih =>
    intro ys h
    rw [List.cons_append, scanN_false, h x (List.mem_cons_self _ _),
      ih ys (fun d hd => h d (List.mem_cons_of_mem _ hd)), List.cons_append]

/-! ### C6: facts about `tryTail` -/

/-- The whitespace run decomposes as the backtracking bound plus trailing
line terminators. -/
theorem wsRun_decomp (r : Chars) :
    wsRun r = wsPre r ++ ((wsRun r).reverse.takeWhile isLineTerm).reverse ∧
      (∀ c ∈ ((wsRun r).reverse.takeWhile isLineTerm).reverse, isLineTerm c = true) := by
  constructor
  · have h := List.takeWhile_append_dropWhile (p := isLineTerm) (l := (wsRun r).reverse)
    have h2 := congrArg List.reverse h
    rw [List.reverse_append, List.reverse_reverse] at h2
    exact h2.symm
  · intro c hc
    rw [List.mem_reverse] at hc
    exact List.mem_takeWhile_imp hc

theorem wsPre_getLast {r : Chars} (h : 1 ≤ (wsPre r).length) :
    ∃ w, (wsPre r).getLast? = some w ∧ isLineTerm w = false ∧ w ∈ wsRun r := by
  unfold wsPre
  rw [List.getLast?_reverse]
  cases hq : ((wsRun r).reverse.dropWhile isLineTerm).head? with
  | none =>
    exfalso
    rw [List.head?_eq_none_iff] at hq
    unfold wsPre at h
    rw [hq] at h
    simp at h
  | some w =>
    refine ⟨w, rfl, ?_, ?_⟩
    · have := List.head?_dropWhile_not isLineTerm (wsRun r).reverse
      rw [hq] at this
      exact this
    · have hw : w ∈ (wsRun r).reverse.dropWhile isLineTerm := by
        cases hd : (wsRun r).reverse.dropWhile isLineTerm with
        | nil => rw [hd] at hq; cases hq
        | cons a t =>
          rw [hd] at hq
          cases hq
          exact List.mem_cons_self _ _
      rw [← List.mem_reverse]
      exact ((List.dropWhile_sublist _).subset hw)

theorem tryTail_cap_props {r cap rem : Chars} (h : tryTail r = some (cap, rem)) :
    cap ≠ [] ∧ (∀ c ∈ cap, isLineTerm c = false) := by
  unfold tryTail at h
  split_ifs at h with h1 h2 h3
  · simp only [Option.some.injEq, Prod.mk.injEq] at h
    obtain ⟨hcap, -⟩ := h
    obtain ⟨w, hw1, hw2, -⟩ := wsPre_getLast (r := r) (by omega)
    rw [List.getLastD_eq_getLast?, hw1] at hcap
    refine ⟨by rw [← hcap]; simp, ?_⟩
    intro c hc
    rw [← hcap] at hc
    rw [List.mem_singleton] at hc
    subst hc
    exact hw2
  · simp only [Option.some.injEq, Prod.mk.injEq] at h
    obtain ⟨hcap, -⟩ := h
    have hne : wsAfter r ≠ [] := by
      intro hx; rw [hx] at h2; exact h2 rfl
    cases hq : wsAfter r with
    | nil => exact absurd hq hne
    | cons a t =>
      have ha : jsSpace a = false := by
        have := List.head?_dropWhile_not jsSpace r
        unfold wsAfter at hq
        rw [hq] at this
        exact this
      have haLT : isLineTerm a = false := by
        by_contra hx
        rw [Bool.not_eq_false] at hx
        rw [lineTerm_space hx] at ha
        cases ha
      constructor
      · rw [← hcap, hq, List.takeWhile_cons_of_pos (by simp [haLT])]
        simp
      · intro c hc
        rw [← hcap] at hc
        have := List.mem_takeWhile_imp hc
        simpa using this

theorem tryTail_none_scanB {r : Chars} (h : tryTail r = none) :
    tryTail (scanB false r) = none := by
  unfold tryTail at h
  split_ifs at h with h1 h2 h3
  · cases r with
    | nil => rfl
    | cons c t =>
      have hc : jsSpace c = false := by
        by_contra hcc
        rw [Bool.not_eq_false] at hcc
        unfold wsRun at h1
        rw [List.takeWhile_cons_of_pos hcc] at h1
        simp at h1
      rw [scanB_false]
      unfold tryTail wsRun
      rw [List.takeWhile_cons_of_neg (by simp [hc])]
      rfl
  · have hall : ∀ c ∈ r, jsSpace c = true := by
      rw [← List.dropWhile_eq_nil_iff (p := jsSpace)]
      rw [List.isEmpty_iff] at h2
      exact h2
    rw [scanB_all_space r hall false]
    unfold tryTail
    rw [if_neg h1, if_pos h2, if_neg h3]

theorem tryTail_none_scanN {r : Chars} (h : tryTail r = none) :
    tryTail (scanN false r) = none := by
  unfold tryTail at h
  split_ifs at h with h1 h2 h3
  · cases r with
    | nil => rfl
    | cons c t =>
      have hc : jsSpace c = false := by
        by_contra hcc
        rw [Bool.not_eq_false] at hcc
        unfold wsRun at h1
        rw [List.takeWhile_cons_of_pos hcc] at h1
        simp at h1
      rw [scanN_false]
      unfold tryTail wsRun
      rw [List.takeWhile_cons_of_neg (by simp [hc])]
      rfl
  · have hall : ∀ c ∈ r, jsSpace c = true := by
      rw [← List.dropWhile_eq_nil_iff (p := jsSpace)]
      rw [List.isEmpty_iff] at h2
      exact h2
    rw [scanN_all_space r hall false]
    unfold tryTail
    rw [if_neg h1, if_pos h2, if_neg h3]

/-- Rescanning an ordered-list replacement re-matches with the identical
capture: the tail `" " ++ capture ++ remainder` matches `\s+(.+)$` again,
capturing the same text. -/
theorem tryTail_rescan {r cap rem : Chars} (h : tryTail r = some (cap, rem)) :
    tryTail (' ' :: (cap ++ scanN false rem)) = some (cap, scanN false rem) := by
  unfold tryTail at h
  split_ifs at h with h1 h2 h3
  · -- backtracking case: everything after the marker is whitespace
    simp only [Option.some.injEq, Prod.mk.injEq] at h
    obtain ⟨hcap, hrem⟩ := h
    have hallr : ∀ c ∈ r, jsSpace c = true := by
      rw [← List.dropWhile_eq_nil_iff (p := jsSpace)]
      rw [List.isEmpty_iff] at h2
      exact h2
    obtain ⟨w, hw1, hw2, hw3⟩ := wsPre_getLast (r := r) (by omega)
    have hwv : cap = [w] := by
      rw [← hcap, List.getLastD_eq_getLast?, hw1]
      rfl
    have hdecomp := wsRun_decomp r
    have hremv : rem = ((wsRun r).reverse.takeWhile isLineTerm).reverse := by
      rw [← hrem]
      conv_lhs => rw [hdecomp.1]
      rw [List.drop_left]
    have hremLT : ∀ c ∈ rem, isLineTerm c = true := by
      rw [hremv]; exact hdecomp.2
    have hremSp : ∀ c ∈ rem, jsSpace c = true := fun c hc => lineTerm_space (hremLT c hc)
    have hS : scanN false rem = rem := scanN_all_space rem hremSp false
    have hwspace : jsSpace w = true := hallr w ((List.takeWhile_sublist _).subset hw3)
    rw [hS, hwv]
    have hall2 : ∀ c ∈ (' ' :: ([w] ++ rem)), jsSpace c = true := by
      intro c hc
      rcases List.mem_cons.mp hc with hc | hc
      · subst hc; decide
      · rcases List.mem_cons.mp hc with hc | hc
        · subst hc; exact hwspace
        · exact hremSp c hc
    have hrun : wsRun (' ' :: ([w] ++ rem)) = ' ' :: ([w] ++ rem) := by
      unfold wsRun
      exact List.takeWhile_eq_self_iff.mpr hall2
    have hafter : wsAfter (' ' :: ([w] ++ rem)) = [] := by
      unfold wsAfter
      exact List.dropWhile_eq_nil_iff.mpr hall2
    have hpre : wsPre (' ' :: ([w] ++ rem)) = [' ', w] := by
      unfold wsPre
      rw [hrun]
      have hrev : (' ' :: ([w] ++ rem)).reverse = rem.reverse ++ [w, ' '] := by
        simp [List.reverse_cons, List.append_assoc]
      rw [hrev, List.dropWhile_append]
      rw [if_pos (by
        rw [List.isEmpty_iff, List.dropWhile_eq_nil_iff]
        intro c hc
        exact hremLT c (List.mem_reverse.mp hc))]
      rw [List.dropWhile_cons_of_neg (by simp [hw2])]
      simp
    unfold tryTail
    rw [hrun, hafter, hpre]
    rw [if_neg (by simp), if_pos (show ([] : Chars).isEmpty = true from rfl),
      if_pos (show 2 ≤ ([' ', w] : Chars).length by simp)]
    have hgl : ([' ', w] : Chars).getLastD ' ' = w := by
      rw [List.getLastD_eq_getLast?]
      rfl
    rw [hgl]
    simp
  · -- main case: the capture starts with a non-whitespace character
    simp only [Option.some.injEq, Prod.mk.injEq] at h
    obtain ⟨hcap, hrem⟩ := h
    have hne : wsAfter r ≠ [] := by
      intro hx; rw [hx] at h2; exact h2 rfl
    cases hq : wsAfter r with
    | nil => exact absurd hq hne
    | cons a t =>
      have ha : jsSpace a = false := by
        have := List.head?_dropWhile_not jsSpace r
        unfold wsAfter at hq
        rw [hq] at this
        exact this
      have haLT : isLineTerm a = false := by
        by_contra hx
        rw [Bool.not_eq_false] at hx
        rw [lineTerm_space hx] at ha
        cases ha
      have hcapcons : cap = a :: t.takeWhile (fun c => !isLineTerm c) := by
        rw [← hcap, hq, List.takeWhile_cons_of_pos (by simp [haLT])]
      have hcapLT : ∀ c ∈ cap, isLineTerm c = false := by
        intro c hc
        rw [← hcap] at hc
        simpa using List.mem_takeWhile_imp hc
      have hremhead : ∀ y t2, rem = y :: t2 → isLineTerm y = true := by
        intro y t2 hy
        have := List.head?_dropWhile_not (fun c => !isLineTerm c) (wsAfter r)
        rw [hrem, hy] at this
        simpa using this
      have hShead : ∀ y t2, scanN false rem = y :: t2 →
          (fun c => !isLineTerm c) y = false := by
        intro y t2 hy
        have h5 : rem.head? = some y := by
          rw [← scanN_false_head, hy]
          rfl
        cases hrc : rem with
        | nil => rw [hrc] at h5; cases h5
        | cons b t3 =>
          rw [hrc] at h5
          simp only [List.head?_cons, Option.some.injEq] at h5
          subst h5
          simp [hremhead b t3 hrc]
      have htw := takeWhile_append_all cap (scanN false rem)
        (fun c hc => by simp [hcapLT c hc]) hShead
      have hrun : wsRun (' ' :: (cap ++ scanN false rem)) = [' '] := by
        unfold wsRun
        rw [List.takeWhile_cons_of_pos (by decide)]
        rw [hcapcons, List.cons_append, List.takeWhile_cons_of_neg (by simp [ha])]
      have hafter : wsAfter (' ' :: (cap ++ scanN false rem)) = cap ++ scanN false rem := by
        unfold wsAfter
        rw [List.dropWhile_cons_of_pos (by decide)]
        rw [hcapcons, List.cons_append, List.dropWhile_cons_of_neg (by simp [ha]),
          ← List.cons_append, ← hcapcons]
      unfold tryTail
      rw [hrun, hafter]
      rw [if_neg (by simp), if_neg (by
        rw [List.isEmpty_iff]
        intro hx
        rw [hcapcons, List.cons_append] at hx
        cases hx)]
      rw [htw.1, htw.2]

/-! ### C6: match extraction and none-preservation -/

theorem tryMatchB_some_spec {c : Char} {rest cap rem : Chars}
    (h : tryMatchB (c :: rest) = some (cap, rem)) :
    glyphB c = true ∧ tryTail rest = some (cap, rem) := by
  unfold tryMatchB at h
  dsimp only at h
  by_cases hg : glyphB c = true
  · rw [if_pos hg] at h
    exact ⟨hg, h⟩
  · rw [if_neg hg] at h
    cases h

theorem tryMatchN_some_spec {c : Char} {rest ds cap rem : Chars}
    (h : tryMatchN (c :: rest) = some (ds, cap, rem)) :
    ds = digRun (c :: rest) ∧ ds ≠ [] ∧
      ∃ r, (c :: rest).drop ds.length = '.' :: r ∧ tryTail r = some (cap, rem) := by
  unfold tryMatchN at h
  split_ifs at h with h1
  revert h
  split
  · rename_i r hr
    split
    · rename_i cap2 rem2 hq
      intro h
      simp only [Option.some.injEq, Prod.mk.injEq] at h
      obtain ⟨hds, hcap, hrem⟩ := h
      subst hds; subst hcap; subst hrem
      refine ⟨rfl, ?_, r, hr, hq⟩
      intro hx
      rw [hx] at h1
      exact h1 rfl
    · intro h; cases h
  · intro h; cases h

theorem tryMatchB_none_scanB {c : Char} {rest : Chars} (h : tryMatchB (c :: rest) = none) :
    tryMatchB (c :: scanB (isLineTerm c) rest) = none := by
  by_cases hg : glyphB c = true
  · have hLT : isLineTerm c = false := glyph_not_lineTerm hg
    have htt : tryTail rest = none := by
      unfold tryMatchB at h
      dsimp only at h
      rwa [if_pos hg] at h
    rw [hLT]
    unfold tryMatchB
    dsimp only
    rw [if_pos hg]
    exact tryTail_none_scanB htt
  · exact tryMatchB_none_of_not_glyph (by simpa using hg)

theorem tryMatchB_none_scanN {c : Char} {rest : Chars} (h : tryMatchB (c :: rest) = none) :
    tryMatchB (c :: scanN (isLineTerm c) rest) = none := by
  by_cases hg : glyphB c = true
  · have hLT : isLineTerm c = false := glyph_not_lineTerm hg
    have htt : tryTail rest = none := by
      unfold tryMatchB at h
      dsimp only at h
      rwa [if_pos hg] at h
    rw [hLT]
    unfold tryMatchB
    dsimp only
    rw [if_pos hg]
    exact tryTail_none_scanN htt
  · exact tryMatchB_none_of_not_glyph (by simpa using hg)

theorem tryMatchN_eq_none_iff (cs : Chars) :
    tryMatchN cs = none ↔
      digRun cs = [] ∨
      (∃ r, cs.drop (digRun cs).length = '.' :: r ∧ tryTail r = none) ∨
      (∀ r, cs.drop (digRun cs).length ≠ '.' :: r) := by
  unfold tryMatchN
  split_ifs with h1
  · exact iff_of_true rfl (Or.inl (List.isEmpty_iff.mp h1))
  · have hne : digRun cs ≠ [] := by simpa [List.isEmpty_iff] using h1
    constructor
    · intro h
      revert h
      split
      · rename_i r hr
        split
        · rename_i cap rem hq
          intro h
          cases h
        · rename_i hq
          intro _
          exact Or.inr (Or.inl ⟨r, hr, hq⟩)
      · rename_i hno
        intro _
        refine Or.inr (Or.inr ?_)
        intro r hr
        exact absurd hr (by intro hx; exact hno r hx)
    · intro h
      rcases h with h | ⟨r, hr, hq⟩ | h
      · exact absurd h hne
      · split
        · rename_i r2 hr2
          rw [hr] at hr2
          obtain ⟨-, ht⟩ := List.cons.inj hr2
          subst ht
          rw [hq]
        · rfl
      · split
        · rename_i r2 hr2
          exact absurd hr2 (h r2)
        · rfl

theorem tryMatchN_some_intro {cs ds cap rem r : Chars}
    (h1 : digRun cs = ds) (h2 : ds ≠ []) (h3 : cs.drop ds.length = '.' :: r)
    (h4 : tryTail r = some (cap, rem)) : tryMatchN cs = some (ds, cap, rem) := by
  unfold tryMatchN
  rw [if_neg (by rw [h1]; simpa [List.isEmpty_iff] using h2)]
  rw [h1, h3]
  split
  · rename_i r2 hr2
    obtain ⟨-, ht⟩ := List.cons.inj hr2
    subst ht
    rw [h4]
  · rename_i hno
    exact absurd rfl (by intro hx; exact hno r hx)

theorem tryMatchN_none_scanN {c : Char} {rest : Chars} (h : tryMatchN (c :: rest) = none) :
    tryMatchN (c :: scanN (isLineTerm c) rest) = none := by
  by_cases hd : c.isDigit = true
  · have hLT : isLineTerm c = false := digit_not_lineTerm hd
    rw [hLT]
    have hd1 : ∀ x ∈ rest.takeWhile Char.isDigit, Char.isDigit x = true :=
      fun x hx => List.mem_takeWhile_imp hx
    have hd1LT : ∀ x ∈ rest.takeWhile Char.isDigit, isLineTerm x = false :=
      fun x hx => digit_not_lineTerm (hd1 x hx)
    have hXeq : scanN false rest =
        rest.takeWhile Char.isDigit ++ scanN false (rest.dropWhile Char.isDigit) := by
      conv_lhs => rw [← List.takeWhile_append_dropWhile (p := Char.isDigit) (l := rest)]
      exact scanN_append_nonLT _ _ hd1LT
    have hr2head : ∀ y t, rest.dropWhile Char.isDigit = y :: t → Char.isDigit y = false := by
      intro y t hy
      have := List.head?_dropWhile_not Char.isDigit rest
      rw [hy] at this
      exact this
    have hXhead : ∀ y t, scanN false (rest.dropWhile Char.isDigit) = y :: t →
        Char.isDigit y = false := by
      intro y t hy
      have h5 : (rest.dropWhile Char.isDigit).head? = some y := by
        rw [← scanN_false_head, hy]
        rfl
      cases hrc : rest.dropWhile Char.isDigit with
      | nil => rw [hrc] at h5; cases h5
      | cons b t3 =>
        rw [hrc] at h5
        simp only [List.head?_cons, Option.some.injEq] at h5
        subst h5
        exact hr2head b t3 hrc
    have hdig : digRun (c :: scanN false rest) = c :: rest.takeWhile Char.isDigit := by
      unfold digRun
      rw [List.takeWhile_cons_of_pos hd, hXeq]
      rw [(takeWhile_append_all _ _ hd1 hXhead).1]
    have hdig0 : digRun (c :: rest) = c :: rest.takeWhile Char.isDigit := by
      unfold digRun
      rw [List.takeWhile_cons_of_pos hd]
    have hdrop : (c :: scanN false rest).drop (digRun (c :: scanN false rest)).length =
        scanN false (rest.dropWhile Char.isDigit) := by
      rw [hdig, hXeq]
      simp only [List.length_cons, List.drop_succ_cons]
      exact List.drop_left _ _
    have hdrop0 : (c :: rest).drop (digRun (c :: rest)).length =
        rest.dropWhile Char.isDigit := by
      rw [hdig0]
      simp only [List.length_cons, List.drop_succ_cons]
      exact drop_takeWhile_length _ _
    rw [tryMatchN_eq_none_iff] at h
    rw [tryMatchN_eq_none_iff]
    rw [hdrop0] at h
    rw [hdrop]
    rcases h with h | ⟨r, hr, hq⟩ | h
    · rw [hdig0] at h
      cases h
    · refine Or.inr (Or.inl ⟨scanN false r, ?_, tryTail_none_scanN hq⟩)
      rw [hr, scanN_false, (by decide : isLineTerm '.' = false)]
    · refine Or.inr (Or.inr ?_)
      intro r2 hr2
      have h5 : (rest.dropWhile Char.isDigit).head? = some '.' := by
        rw [← scanN_false_head, hr2]
        rfl
      cases hrc : rest.dropWhile Char.isDigit with
      | nil => rw [hrc] at h5; cases h5
      | cons b t3 =>
        rw [hrc] at h5
        simp only [List.head?_cons, Option.some.injEq] at h5
        subst h5
        exact h t3 hrc
  · exact tryMatchN_none_of_not_digit (by simpa using hd)

/-! ### C6: idempotence of each scanner -/

theorem scanB_idem : ∀ (cs : Chars) (st : Bool), scanB st (scanB st cs) = scanB st cs := by
  suffices h : ∀ k : Nat, ∀ cs : Chars, cs.length ≤ k → ∀ st,
      scanB st (scanB st cs) = scanB st cs by
    intro cs st; exact h cs.length cs le_rfl st
  intro k
  induction k with
  | zero =>
    intro cs h1 st
    have : cs = [] := List.length_eq_zero.mp (Nat.le_zero.mp h1)
    subst this
    rw [scanB_nil, scanB_nil]
  | succ a ih =>
    intro cs h1 st
    match cs with
    | [] => rw [scanB_nil, scanB_nil]
    | c :: rest =>
      simp only [List.length_cons] at h1
      cases st with
      | false =>
        rw [scanB_false, scanB_false, ih rest (by omega) (isLineTerm c)]
      | true =>
        cases hm : tryMatchB (c :: rest) with
        | none =>
          rw [scanB_true_none hm, scanB_true_none (tryMatchB_none_scanB hm),
            ih rest (by omega) (isLineTerm c)]
        | some pr =>
          obtain ⟨cap, rem⟩ := pr
          rw [scanB_true_some hm]
          rw [scanB_true_none (tryMatchB_none_of_not_glyph (by decide))]
          rw [(by decide : isLineTerm '-' = false), scanB_false,
            (by decide : isLineTerm ' ' = false)]
          have hcap := tryTail_cap_props (tryMatchB_some_spec hm).2
          rw [scanB_append_nonLT cap _ hcap.2]
          have hrlt := tryMatchB_rem_lt hm
          simp only [List.length_cons] at hrlt
          rw [ih rem (by omega) false]

theorem scanN_idem : ∀ (cs : Chars) (st : Bool), scanN st (scanN st cs) = scanN st cs := by
  suffices h : ∀ k : Nat, ∀ cs : Chars, cs.length ≤ k → ∀ st,
      scanN st (scanN st cs) = scanN st cs by
    intro cs st; exact h cs.length cs le_rfl st
  intro k
  induction k with
  | zero =>
    intro cs h1 st
    have : cs = [] := List.length_eq_zero.mp (Nat.le_zero.mp h1)
    subst this
    rw [scanN_nil, scanN_nil]
  | succ a ih =>
    intro cs h1 st
    match cs with
    | [] => rw [scanN_nil, scanN_nil]
    | c :: rest =>
      simp only [List.length_cons] at h1
      cases st with
      | false =>
        rw [scanN_false, scanN_false, ih rest (by omega) (isLineTerm c)]
      | true =>
        cases hm : tryMatchN (c :: rest) with
        | none =>
          rw [scanN_true_none hm, scanN_true_none (tryMatchN_none_scanN hm),
            ih rest (by omega) (isLineTerm c)]
        | some tr =>
          obtain ⟨ds, cap, rem⟩ := tr
          rw [scanN_true_some hm]
          obtain ⟨hds, hdsne, r, hdr, htt⟩ := tryMatchN_some_spec hm
          have hdsdig : ∀ x ∈ ds, Char.isDigit x = true := by
            intro x hx
            rw [hds] at hx
            exact List.mem_takeWhile_imp hx
          have hrlt := tryMatchN_rem_lt hm
          simp only [List.length_cons] at hrlt
          -- the rewritten text matches again, with the same digits and capture
          have hm2 : tryMatchN (ds ++ '.' :: ' ' :: (cap ++ scanN false rem)) =
              some (ds, cap, scanN false rem) := by
            refine tryMatchN_some_intro ?_ hdsne ?_ (tryTail_rescan htt)
            · unfold digRun
              rw [(takeWhile_append_all ds ('.' :: ' ' :: (cap ++ scanN false rem))
                hdsdig ?_).1]
              intro y t2 hyt
              obtain ⟨hy, -⟩ := List.cons.inj hyt
              subst hy
              decide
            · rw [List.drop_left]
          cases hds2 : ds with
          | nil => exact absurd hds2 hdsne
          | cons d0 ds1 =>
            rw [hds2] at hm2
            rw [List.cons_append] at hm2 ⊢
            rw [scanN_true_some hm2]
            rw [ih rem (by omega) false]
            rfl

/-! ### C6: bullet-stability is preserved by ordered-list normalization -/

theorem digit_not_glyph {c : Char} (h : c.isDigit = true) : glyphB c = false := by
  cases hg : glyphB c with
  | false => rfl
  | true => rw [glyph_not_digit hg] at h; cases h

theorem bstab_cons {c : Char} {rest : Chars} {st : Bool}
    (h : scanB st (c :: rest) = c :: rest) :
    scanB (isLineTerm c) rest = rest ∧ (st = true → tryMatchB (c :: rest) = none) := by
  cases st with
  | false =>
    rw [scanB_false] at h
    exact ⟨(List.cons.inj h).2, fun hst => by cases hst⟩
  | true =>
    cases hm : tryMatchB (c :: rest) with
    | none =>
      rw [scanB_true_none hm] at h
      exact ⟨(List.cons.inj h).2, fun _ => rfl⟩
    | some pr =>
      obtain ⟨cap, rem⟩ := pr
      rw [scanB_true_some hm] at h
      have hc : c = '-' := ((List.cons.inj h).1).symm
      have hg := (tryMatchB_some_spec hm).1
      rw [hc] at hg
      exact absurd hg (by decide)

/-- The line-start state after scanning a block of copied characters. -/
def stAfter (st : Bool) (xs : Chars) : Bool :=
  xs.foldl (fun _ c => isLineTerm c) st

theorem stAfter_append (st : Bool) (xs ys : Chars) :
    stAfter st (xs ++ ys) = stAfter (stAfter st xs) ys :=
  List.foldl_append _ _ _ _

theorem stAfter_concat (st : Bool) (zs : Chars) (z : Char) :
    stAfter st (zs ++ [z]) = isLineTerm z := by
  rw [stAfter_append]
  rfl

theorem bstab_peel :
    ∀ (xs ys : Chars) (st : Bool), scanB st (xs ++ ys) = xs ++ ys →
      scanB (stAfter st xs) ys = ys := by
  intro xs
  induction xs with
  | nil => intro ys st h; exact h
  | cons x xs2 ih =>
    intro ys st h
    exact ih ys (isLineTerm x) (bstab_cons h).1

theorem bstab_rem {r cap rem : Chars} (htt : tryTail r = some (cap, rem))
    (hBr : scanB false r = r) : scanB false rem = rem := by
  have hcapp := tryTail_cap_props htt
  unfold tryTail at htt
  split_ifs at htt with h1 h2 h3
  · -- backtracking: the remainder is all line terminators, hence whitespace
    simp only [Option.some.injEq, Prod.mk.injEq] at htt
    obtain ⟨-, hrem⟩ := htt
    have hdecomp := wsRun_decomp r
    have hremv : rem = ((wsRun r).reverse.takeWhile isLineTerm).reverse := by
      rw [← hrem]
      conv_lhs => rw [hdecomp.1]
      rw [List.drop_left]
    exact scanB_all_space rem
      (fun c hc => lineTerm_space (hdecomp.2 c (hremv ▸ hc))) false
  · -- main case: peel the whitespace run and the capture off `r`
    simp only [Option.some.injEq, Prod.mk.injEq] at htt
    obtain ⟨hcap, hrem⟩ := htt
    have hr : r = (wsRun r ++ cap) ++ rem := by
      rw [List.append_assoc, ← hcap, ← hrem, List.takeWhile_append_dropWhile]
      unfold wsRun wsAfter
      exact (List.takeWhile_append_dropWhile (p := jsSpace) (l := r)).symm
    have hpeel := bstab_peel (wsRun r ++ cap) rem false (by rw [← hr]; exact hBr)
    obtain ⟨cz, z, hz⟩ : ∃ cz z, cap = cz ++ [z] := by
      rcases List.eq_nil_or_concat cap with hx | ⟨cz, z, hx⟩
      · exact absurd hx hcapp.1
      · exact ⟨cz, z, by rw [hx, List.concat_eq_append]⟩
    have hzLT : isLineTerm z = false :=
      hcapp.2 z (by rw [hz]; exact List.mem_append_right _ (List.mem_singleton_self _))
    have hst : stAfter false (wsRun r ++ cap) = false := by
      rw [hz, ← List.append_assoc, stAfter_concat, hzLT]
    rw [hst] at hpeel
    exact hpeel

theorem scanB_stable_scanN :
    ∀ (cs : Chars) (st : Bool), scanB st cs = cs →
      scanB st (scanN st cs) = scanN st cs := by
  suffices h : ∀ k : Nat, ∀ cs : Chars, cs.length ≤ k → ∀ st, scanB st cs = cs →
      scanB st (scanN st cs) = scanN st cs by
    intro cs st; exact h cs.length cs le_rfl st
  intro k
  induction k with
  | zero =>
    intro cs h1 st _
    have : cs = [] := List.length_eq_zero.mp (Nat.le_zero.mp h1)
    subst this
    rw [scanN_nil, scanB_nil]
  | succ a ih =>
    intro cs h1 st hstab
    match cs with
    | [] => rw [scanN_nil, scanB_nil]
    | c :: rest =>
      simp only [List.length_cons] at h1
      have hB := bstab_cons hstab
      cases st with
      | false =>
        rw [scanN_false, scanB_false]
        rw [ih rest (by omega) (isLineTerm c) hB.1]
      | true =>
        have hBnone : tryMatchB (c :: rest) = none := hB.2 rfl
        cases hm : tryMatchN (c :: rest) with
        | none =>
          rw [scanN_true_none hm]
          rw [scanB_true_none (tryMatchB_none_scanN hBnone)]
          rw [ih rest (by omega) (isLineTerm c) hB.1]
        | some tr =>
          obtain ⟨ds, cap, rem⟩ := tr
          rw [scanN_true_some hm]
          obtain ⟨hds, hdsne, r, hdr, htt⟩ := tryMatchN_some_spec hm
          have hcdig : Char.isDigit c = true := by
            by_contra hx
            have hx2 : Char.isDigit c = false := by simpa using hx
            rw [hds] at hdsne
            unfold digRun at hdsne
            rw [List.takeWhile_cons_of_neg (by simp [hx2])] at hdsne
            exact hdsne rfl
          have hcLT : isLineTerm c = false := digit_not_lineTerm hcdig
          have hdsv : ds = c :: rest.takeWhile Char.isDigit := by
            rw [hds]
            unfold digRun
            rw [List.takeWhile_cons_of_pos hcdig]
          have hrestsplit : rest = (rest.takeWhile Char.isDigit ++ ['.']) ++ r := by
            rw [hdsv] at hdr
            simp only [List.length_cons, List.drop_succ_cons] at hdr
            have h6 : rest.drop (rest.takeWhile Char.isDigit).length =
                rest.dropWhile Char.isDigit := drop_takeWhile_length _ _
            rw [h6] at hdr
            rw [List.append_assoc, List.singleton_append, ← hdr,
              List.takeWhile_append_dropWhile]
          have hBrest : scanB false rest = rest := by
            rw [← hcLT]; exact hB.1
          have hBr : scanB false r = r := by
            have := bstab_peel (rest.takeWhile Char.isDigit ++ ['.']) r false
              (by rw [← hrestsplit]; exact hBrest)
            rwa [stAfter_concat, (by decide : isLineTerm '.' = false)] at this
          have hBrem : scanB false rem = rem := bstab_rem htt hBr
          have hrlt := tryMatchN_rem_lt hm
          simp only [List.length_cons] at hrlt
          -- now rescan the replacement text with the bullet scanner
          have hdsdig : ∀ x ∈ ds, Char.isDigit x = true := by
            intro x hx
            rw [hds] at hx
            exact List.mem_takeWhile_imp hx
          cases hds2 : ds with
          | nil => exact absurd hds2 hdsne
          | cons d0 ds1 =>
            have hd0dig : Char.isDigit d0 = true :=
              hdsdig d0 (by rw [hds2]; exact List.mem_cons_self _ _)
            simp only [List.cons_append]
            rw [scanB_true_none (tryMatchB_none_of_not_glyph (digit_not_glyph hd0dig))]
            rw [digit_not_lineTerm hd0dig]
            have hxs : ∀ x ∈ (ds1 ++ '.' :: ' ' :: cap), isLineTerm x = false := by
              intro x hx
              rcases List.mem_append.mp hx with hx | hx
              · exact digit_not_lineTerm (hdsdig x (by rw [hds2]; exact List.mem_cons_of_mem _ hx))
              · rcases List.mem_cons.mp hx with hx | hx
                · subst hx; decide
                · rcases List.mem_cons.mp hx with hx | hx
                  · subst hx; decide
                  · exact (tryTail_cap_props htt).2 x hx
            have hsplit2 : ds1 ++ '.' :: ' ' :: (cap ++ scanN false rem) =
                (ds1 ++ '.' :: ' ' :: cap) ++ scanN false rem := by
              simp [List.append_assoc]
            rw [hsplit2, scanB_append_nonLT _ _ hxs]
            rw [ih rem (by omega) false hBrem]

/-- C6.  The bullet- and ordered-list-normalization steps (4–5 of
`formatAsMarkdown`) are idempotent: applying the two multiline replacements
twice yields the same string as applying them once, for every input. -/
theorem listNormalize_idempotent (s : Chars) :
    listNormalize (listNormalize s) = listNormalize s := by
  unfold listNormalize
  rw [scanB_stable_scanN (scanB true s) true (scanB_idem s true), scanN_idem]

/-! ### C8: order preservation of content characters across the full pipeline -/

/-- The characters the formatting pipeline never inserts on its own and never
deletes: everything except JavaScript whitespace (removed by trimming, the
`\s+` of the replaces, and the blank-line collapse; inserted by joins), the
bullet glyphs `[•·▪▸■]` (replaced by `- `), and the Markdown marker characters
`#` and `-` (inserted by the heading prefix, the bullet replacement, and the
page separator `---`). -/
def keepContent (c : Char) : Bool :=
  !jsSpace c && !glyphB c && !(c = '#') && !(c = '-')

/-- The content characters of a string, in order. -/
def contentOf (s : Chars) : Chars := s.filter keepContent

theorem contentOf_append (a b : Chars) : contentOf (a ++ b) = contentOf a ++ contentOf b :=
  List.filter_append a b

theorem contentOf_cons (c : Char) (s : Chars) :
    contentOf (c :: s) = if keepContent c = true then c :: contentOf s else contentOf s :=
  List.filter_cons

theorem contentOf_reverse (s : Chars) : contentOf s.reverse = (contentOf s).reverse :=
  List.filter_reverse _ _

theorem contentOf_all_space {s : Chars} (h : ∀ c ∈ s, jsSpace c = true) :
    contentOf s = [] := by
  rw [contentOf, List.filter_eq_nil_iff]
  intro c hc
  simp [keepContent, h c hc]

theorem contentOf_dropWhile_space (s : Chars) :
    contentOf (s.dropWhile jsSpace) = contentOf s := by
  conv_rhs => rw [← List.takeWhile_append_dropWhile jsSpace s]
  rw [contentOf_append,
      contentOf_all_space (fun _ hc => List.mem_takeWhile_imp hc), List.nil_append]

theorem contentOf_jsTrim (s : Chars) : contentOf (jsTrim s) = contentOf s := by
  unfold jsTrim
  rw [contentOf_reverse, contentOf_dropWhile_space, contentOf_reverse,
      List.reverse_reverse, contentOf_dropWhile_space]

theorem contentOf_emitLine (line : Chars) : contentOf (emitLine line) = contentOf line := by
  unfold emitLine
  split_ifs with h
  · rw [← contentOf_jsTrim line]
    rw [List.isEmpty_iff] at h
    rw [h]
  · rw [contentOf_append, ← contentOf_jsTrim line,
        (by decide : contentOf ['\n', '\n'] = ([] : Chars)), List.append_nil]

theorem contentOf_pageLoop :
    ∀ (frs : List Frag) (lastY : Option ℚ) (line pt : Chars),
      contentOf (pageLoop lastY line pt frs) =
        contentOf pt ++ contentOf line ++ contentOf (frs.map Frag.str).flatten := by
  intro frs
  induction frs with
  | nil =>
    intro lastY line pt
    show contentOf (pt ++ emitLine line) = _
    rw [contentOf_append, contentOf_emitLine]
    simp only [List.map_nil, List.flatten_nil, contentOf, List.filter_nil, List.append_nil]
  | cons f rest ih =>
    intro lastY line pt
    show contentOf (if lineBreakAt lastY f.y then _ else _) = _
    by_cases hb : lineBreakAt lastY f.y
    · rw [if_pos hb, ih]
      simp only [List.map_cons, List.flatten_cons, contentOf_append, contentOf_emitLine,
        (by decide : contentOf [' '] = ([] : Chars)), List.append_nil, List.append_assoc]
    · rw [if_neg hb, ih]
      simp only [List.map_cons, List.flatten_cons, contentOf_append,
        (by decide : contentOf [' '] = ([] : Chars)), List.append_nil, List.append_assoc]

theorem contentOf_extractPageText (items : List Frag) :
    contentOf (extractPageText items) = contentOf (items.map Frag.str).flatten := by
  show contentOf (pageLoop none [] [] items) = _
  rw [contentOf_pageLoop]
  rfl

theorem contentOf_buildFullText :
    ∀ ts : List Chars, contentOf (buildFullText ts) = contentOf ts.flatten := by
  intro ts
  induction ts with
  | nil => rfl
  | cons t rest ih =>
    cases rest with
    | nil =>
      show contentOf t = contentOf (t ++ [].flatten)
      rw [List.flatten_nil, List.append_nil]
    | cons t2 rest2 =>
      show contentOf (t ++ pageSep ++ buildFullText (t2 :: rest2)) = _
      rw [contentOf_append, contentOf_append, ih,
          (by decide : contentOf pageSep = ([] : Chars)), List.append_nil]
      simp only [List.flatten_cons, contentOf_append, List.append_assoc]

theorem contentOf_collapseF :
    ∀ (fuel : Nat) (cs : Chars), contentOf (collapseF fuel cs) = contentOf cs := by
  intro fuel
  induction fuel with
  | zero => intro cs; rfl
  | succ fuel ih =>
    intro cs
    cases cs with
    | nil => rfl
    | cons c rest =>
      show contentOf (if c = '\n' then _ else _) = _
      by_cases hc : c = '\n'
      · rw [if_pos hc]
        have hall : contentOf ((c :: rest).takeWhile (fun x => decide (x = '\n'))) = [] := by
          apply contentOf_all_space
          intro x hx
          have hx2 := List.mem_takeWhile_imp hx
          rw [decide_eq_true_eq] at hx2
          subst hx2
          rfl
        have hfirst :
            contentOf (if 3 ≤ ((c :: rest).takeWhile (fun x => decide (x = '\n'))).length
              then (['\n', '\n'] : Chars)
              else (c :: rest).takeWhile (fun x => decide (x = '\n'))) = [] := by
          split_ifs
          · decide
          · exact hall
        rw [contentOf_append, ih, hfirst, List.nil_append, drop_takeWhile_length]
        conv_rhs =>
          rw [← List.takeWhile_append_dropWhile (fun x => decide (x = '\n')) (c :: rest)]
        rw [contentOf_append, hall, List.nil_append]
      · rw [if_neg hc, contentOf_cons, contentOf_cons, ih]

theorem contentOf_tryTail {rest cap rem : Chars} (h : tryTail rest = some (cap, rem)) :
    contentOf rest = contentOf cap ++ contentOf rem := by
  unfold tryTail at h
  split_ifs at h with h1 h2 h3
  · simp only [Option.some.injEq, Prod.mk.injEq] at h
    obtain ⟨hcap, hrem⟩ := h
    subst hcap
    subst hrem
    have hwa : rest.dropWhile jsSpace = [] := by
      rw [List.isEmpty_iff] at h2
      exact h2
    have hall : ∀ c ∈ rest, jsSpace c = true := by
      intro c hc
      rw [← List.takeWhile_append_dropWhile jsSpace rest, hwa, List.append_nil] at hc
      exact List.mem_takeWhile_imp hc
    obtain ⟨w, hw1, -, hw3⟩ := wsPre_getLast (r := rest) (by omega)
    have hwsp : jsSpace w = true := List.mem_takeWhile_imp hw3
    have hcw : contentOf [(wsPre rest).getLastD ' '] = [] := by
      rw [List.getLastD_eq_getLast?, hw1, contentOf_cons, if_neg]
      · rfl
      · simp [keepContent, hwsp]
    have hrw : contentOf ((wsRun rest).drop (wsPre rest).length) = [] :=
      contentOf_all_space
        (fun c hc => List.mem_takeWhile_imp (List.mem_of_mem_drop hc))
    rw [contentOf_all_space hall, hcw, hrw]
    rfl
  · simp only [Option.some.injEq, Prod.mk.injEq] at h
    obtain ⟨hcap, hrem⟩ := h
    subst hcap
    subst hrem
    rw [← contentOf_append, List.takeWhile_append_dropWhile]
    show contentOf rest = contentOf (rest.dropWhile jsSpace)
    rw [contentOf_dropWhile_space]

theorem contentOf_tryMatchB {cs cap rem : Chars} (h : tryMatchB cs = some (cap, rem)) :
    contentOf cs = contentOf cap ++ contentOf rem := by
  match cs with
  | [] => simp [tryMatchB] at h
  | c :: rest =>
    simp only [tryMatchB] at h
    split_ifs at h with hg
    rw [contentOf_cons, if_neg, contentOf_tryTail h]
    simp [keepContent, hg]

theorem contentOf_tryMatchN {cs ds cap rem : Chars} (h : tryMatchN cs = some (ds, cap, rem)) :
    contentOf cs = contentOf ds ++ '.' :: (contentOf cap ++ contentOf rem) := by
  unfold tryMatchN at h
  split_ifs at h with h1
  revert h
  split
  · rename_i r hr
    split
    · rename_i cap' rem' hq
      intro h
      simp only [Option.some.injEq, Prod.mk.injEq] at h
      obtain ⟨hds, hcap, hrem⟩ := h
      subst hcap
      subst hrem
      have hdw : cs.dropWhile Char.isDigit = '.' :: r := by
        rw [← drop_takeWhile_length]
        exact hr
      have hsplit : cs = ds ++ ('.' :: r) := by
        rw [← hds]
        conv_lhs => rw [← List.takeWhile_append_dropWhile Char.isDigit cs, hdw]
        rfl
      rw [hsplit, contentOf_append, contentOf_cons,
          if_pos (by decide : keepContent '.' = true), contentOf_tryTail hq]
    · intro h
      simp at h
  · intro h
    simp at h

theorem contentOf_scanB :
    ∀ (k : Nat) (cs : Chars), cs.length ≤ k →
      ∀ st, contentOf (scanB st cs) = contentOf cs := by
  intro k
  induction k with
  | zero =>
    intro cs hk st
    have hnil : cs = [] := List.length_eq_zero.mp (by omega)
    subst hnil
    rw [scanB_nil]
  | succ k ih =>
    intro cs hk st
    cases cs with
    | nil => rw [scanB_nil]
    | cons c rest =>
      have hk2 : rest.length ≤ k := by
        simp only [List.length_cons] at hk
        omega
      cases st with
      | false =>
        rw [scanB_false, contentOf_cons, contentOf_cons,
            ih rest hk2]
      | true =>
        cases hm : tryMatchB (c :: rest) with
        | none =>
          rw [scanB_true_none hm, contentOf_cons, contentOf_cons,
              ih rest hk2]
        | some pr =>
          obtain ⟨cap, rem⟩ := pr
          rw [scanB_true_some hm, contentOf_cons, if_neg (by decide),
              contentOf_cons, if_neg (by decide), contentOf_append,
              contentOf_tryMatchB hm]
          have hlt := tryMatchB_rem_lt hm
          simp only [List.length_cons] at hlt hk
          rw [ih rem (by omega) false]

theorem contentOf_scanN :
    ∀ (k : Nat) (cs : Chars), cs.length ≤ k →
      ∀ st, contentOf (scanN st cs) = contentOf cs := by
  intro k
  induction k with
  | zero =>
    intro cs hk st
    have hnil : cs = [] := List.length_eq_zero.mp (by omega)
    subst hnil
    rw [scanN_nil]
  | succ k ih =>
    intro cs hk st
    cases cs with
    | nil => rw [scanN_nil]
    | cons c rest =>
      have hk2 : rest.length ≤ k := by
        simp only [List.length_cons] at hk
        omega
      cases st with
      | false =>
        rw [scanN_false, contentOf_cons, contentOf_cons,
            ih rest hk2]
      | true =>
        cases hm : tryMatchN (c :: rest) with
        | none =>
          rw [scanN_true_none hm, contentOf_cons, contentOf_cons,
              ih rest hk2]
        | some tr =>
          obtain ⟨ds, cap, rem⟩ := tr
          rw [scanN_true_some hm, contentOf_append, contentOf_cons,
              if_pos (by decide : keepContent '.' = true), contentOf_cons,
              if_neg (by decide), contentOf_append, contentOf_tryMatchN hm]
          have hlt := tryMatchN_rem_lt hm
          simp only [List.length_cons] at hlt hk
          rw [ih rem (by omega) false]

theorem contentOf_listNormalize (cs : Chars) :
    contentOf (listNormalize cs) = contentOf cs := by
  unfold listNormalize
  rw [contentOf_scanN (scanB true cs).length _ le_rfl true,
      contentOf_scanB cs.length _ le_rfl true]


theorem intercalate_single (sep a : Chars) : List.intercalate sep [a] = a := by
  simp [List.intercalate]

theorem intercalate_cons_two (sep a b : Chars) (l : List Chars) :
    List.intercalate sep (a :: b :: l) = a ++ sep ++ List.intercalate sep (b :: l) := by
  simp [List.intercalate, List.intersperse_cons_cons]

theorem intercalate_cons_head (sep b : Chars) (c : Char) (l : List Chars) :
    List.intercalate sep ((c :: b) :: l) = c :: List.intercalate sep (b :: l) := by
  cases l with
  | nil => rw [intercalate_single, intercalate_single]
  | cons b2 l2 =>
    rw [intercalate_cons_two, intercalate_cons_two]
    simp [List.cons_append, List.append_assoc]

theorem intercalate_nn_splitNN :
    ∀ t : Chars, List.intercalate ['\n', '\n'] (splitNN t) = t := by
  intro t
  induction t using splitNN.induct with
  | case1 rest ih =>
    show List.intercalate ['\n', '\n'] ([] :: splitNN rest) = _
    obtain ⟨b, l, hb⟩ : ∃ b l, splitNN rest = b :: l := by
      cases hsp : splitNN rest with
      | nil => exact absurd hsp (splitNN_ne_nil rest)
      | cons b l => exact ⟨b, l, rfl⟩
    rw [hb] at ih ⊢
    rw [intercalate_cons_two, ih]
    rfl
  | case2 c rest hne ih =>
    rw [splitNN.eq_def]
    split
    · rename_i rr heq
      injection heq with h1 h2
      exact (hne rr h1 h2).elim
    · rename_i c2 rest2 hne2 heq
      injection heq with heq1 heq2
      subst heq1
      subst heq2
      obtain ⟨b, l, hb⟩ : ∃ b l, splitNN rest = b :: l := by
        cases hsp : splitNN rest with
        | nil => exact absurd hsp (splitNN_ne_nil rest)
        | cons b l => exact ⟨b, l, rfl⟩
      rw [hb] at ih ⊢
      rw [List.modifyHead, intercalate_cons_head, ih]
    · rename_i heq
      cases heq
  | case3 =>
    show List.intercalate ['\n', '\n'] [[]] = ([] : Chars)
    rw [intercalate_single]

theorem contentOf_intercalate_nn :
    ∀ l : List Chars,
      contentOf (List.intercalate ['\n', '\n'] l) = (l.map contentOf).flatten := by
  intro l
  cases l with
  | nil => rfl
  | cons b l2 =>
    induction l2 generalizing b with
    | nil =>
      rw [intercalate_single]
      simp
    | cons b2 l3 ih =>
      rw [intercalate_cons_two, contentOf_append, contentOf_append, ih b2,
          (by decide : contentOf ['\n', '\n'] = ([] : Chars)), List.append_nil]
      simp [List.flatten_cons]

theorem contentOf_flatten_filter_trim :
    ∀ l : List Chars,
      ((l.filter (fun p => !(jsTrim p).isEmpty)).map contentOf).flatten =
        (l.map contentOf).flatten := by
  intro l
  induction l with
  | nil => rfl
  | cons p l ih =>
    rw [List.filter_cons]
    by_cases hp : (!(jsTrim p).isEmpty) = true
    · rw [if_pos hp]
      simp only [List.map_cons, List.flatten_cons, ih]
    · rw [if_neg hp]
      have h2 : jsTrim p = [] := by
        cases hq : (jsTrim p).isEmpty with
        | false =>
          rw [hq] at hp
          exact absurd hp (by decide)
        | true => exact List.isEmpty_iff.mp hq
      have hpe : contentOf p = [] := by
        rw [← contentOf_jsTrim, h2]
        rfl
      simp only [List.map_cons, List.flatten_cons, ih, hpe, List.nil_append]

theorem contentOf_classifyPara (arr : List Chars) (idx : Nat) (para : Chars) :
    contentOf (classifyPara arr idx para) = contentOf para := by
  unfold classifyPara
  split_ifs with h
  · rw [contentOf_cons, if_neg (by decide), contentOf_cons, if_neg (by decide),
        contentOf_cons, if_neg (by decide), contentOf_jsTrim]
  · rw [contentOf_jsTrim]

theorem contentOf_flatten_mapIdx :
    ∀ (l : List Chars) (f : Nat → Chars → Chars),
      (∀ i p, contentOf (f i p) = contentOf p) →
      ((l.mapIdx f).map contentOf).flatten = (l.map contentOf).flatten := by
  intro l
  induction l with
  | nil =>
    intro f hf
    rfl
  | cons p l ih =>
    intro f hf
    rw [List.mapIdx_cons]
    simp only [List.map_cons, List.flatten_cons]
    rw [hf 0 p, ih (fun i => f (i + 1)) (fun i q => hf (i + 1) q)]

theorem contentOf_collapseNewlines (s : Chars) :
    contentOf (collapseNewlines s) = contentOf s :=
  contentOf_collapseF s.length s

theorem contentOf_formatAsMarkdown (t : Chars) :
    contentOf (formatAsMarkdown t) = contentOf t := by
  unfold formatAsMarkdown
  rw [contentOf_jsTrim, contentOf_collapseNewlines, contentOf_listNormalize,
      contentOf_intercalate_nn]
  unfold formatParas
  rw [contentOf_flatten_mapIdx (paraSplit t) _
        (fun i p => contentOf_classifyPara (paraSplit t) i p)]
  unfold paraSplit
  rw [contentOf_flatten_filter_trim, ← contentOf_intercalate_nn, intercalate_nn_splitNN]

theorem contentOf_pipeline (pages : List (List Frag)) :
    contentOf (extractTextFromPDF pages) =
      contentOf (pages.map (fun pg => (pg.map Frag.str).flatten)).flatten := by
  unfold extractTextFromPDF
  rw [contentOf_formatAsMarkdown, contentOf_buildFullText]
  rw [contentOf, contentOf, List.filter_flatten, List.filter_flatten,
      List.map_map, List.map_map]
  congr 1
  apply List.map_congr_left
  intro pg _
  exact contentOf_extractPageText pg

/-- C8.  Order preservation across the whole pipeline: write `contentOf s`
for the subsequence of content characters of `s` — every character except
JavaScript whitespace, the bullet glyphs `[•·▪▸■]` (normalized away to `- `),
and the Markdown marker characters `#` and `-` that the formatter itself
inserts (heading prefix `## `, bullet marker `- `, page separator `---`).
Then page extraction, Markdown formatting, and the full document pipeline
each preserve the content characters of their input exactly and in order:
the final Markdown output carries the content of the input fragments in
input order, within each page and across pages, with nothing reordered,
duplicated, or deduplicated. -/
theorem pipeline_order_preservation :
    (∀ items : List Frag,
      contentOf (extractPageText items) = contentOf (items.map Frag.str).flatten) ∧
    (∀ s : Chars, contentOf (formatAsMarkdown s) = contentOf s) ∧
    (∀ pages : List (List Frag),
      contentOf (extractTextFromPDF pages) =
        contentOf (pages.map (fun pg => (pg.map Frag.str).flatten)).flatten) :=
  ⟨contentOf_extractPageText, contentOf_formatAsMarkdown, contentOf_pipeline⟩
